import Mathlib

/-!
# A* grid solver (`solver.hpp`): shallow embedding and verification

The embedding follows `src/src/solver.hpp` and `src/src/ExampleArea.hpp`.

* `CoordType` is `int64_t` in the source.  Coordinates are embedded as `Int`; the
  embedding describes every run in which no signed coordinate computation overflows
  (signed overflow is undefined behaviour in C++).
* `f_value` and `g_value` are `uint64_t`; they are embedded as `Nat` and every
  addition on them is reduced modulo `2 ^ 64`.
* `std::priority_queue<AStarNode, std::vector<AStarNode>, AStarNodePrioritySorter>`
  is embedded through its backing vector (a `List AStarNode`) together with
  `std::push_heap` / `std::pop_heap` as implemented by libstdc++
  (`__push_heap`, `__adjust_heap`, `__pop_heap`).  The solver reaches into that
  backing vector through `Container`, so the vector layout is observable.
* `std::unordered_map<Position, AStarNode, HashPair>` is embedded as an association
  list; the solver never iterates over it, so the order of entries is unobservable.
* `while` loops are embedded with a fuel argument; `none` means the fuel ran out.
-/

namespace AStar

/-! ## Data model -/

/-- The cell classification `enum class AStarType`. -/
inductive AStarType where
  | NONE
  | EMPTY
  | FILLED
deriving DecidableEq, Repr

abbrev CoordType := Int

abbrev Position := CoordType × CoordType

/-- The record `class AStarNode`. -/
structure AStarNode where
  position : Position
  predecessor : Position
  f_value : Nat
  g_value : Nat
deriving DecidableEq, Repr

/-- The default constructor `AStarNode()`. -/
instance : Inhabited AStarNode := ⟨⟨(0, 0), (-1, -1), 0, 0⟩⟩

/-- The constructor `AStarNode(CoordType x, CoordType y)`. -/
def AStarNode.ofXY (x y : CoordType) : AStarNode := ⟨(x, y), (-1, -1), 0, 0⟩

/-- The grid capability the solver is instantiated with (`Gettable` and
`CoordinatesAvailable`); `get` is the normalised classification `get_at`. -/
structure Area where
  get : CoordType → CoordType → AStarType
  start_x : CoordType
  start_y : CoordType
  end_x : CoordType
  end_y : CoordType

/-- Width of the unsigned types `FValueType` and `GValueType`. -/
def U64 : Nat := 2 ^ 64

/-! ## The priority queue: libstdc++ heap algorithms on the backing vector -/

/-- The loop of `std::__push_heap` with `topIndex = 0` and the comparator
`AStarNodePrioritySorter` (`l.f_value > r.f_value`): the hole moves up while the parent
has a strictly larger `f_value`; finally the value is written into the hole. -/
def push_heap_loop (value : AStarNode) : Nat → List AStarNode → Nat → List AStarNode
  | 0, c, hole => c.set hole value
  | fuel + 1, c, hole =>
    if 0 < hole ∧ value.f_value < (c.getD ((hole - 1) / 2) default).f_value then
      push_heap_loop value fuel (c.set hole (c.getD ((hole - 1) / 2) default)) ((hole - 1) / 2)
    else c.set hole value

/-- The algorithm `std::push_heap(c.begin(), c.end(), comp)`: sift the last element up. -/
def push_heap (c : List AStarNode) : List AStarNode :=
  push_heap_loop (c.getD (c.length - 1) default) (c.length - 1) c (c.length - 1)

/-- First loop of `std::__adjust_heap`: the hole descends to the child that does not
have the strictly larger `f_value` (the right child on ties).  Returns the vector, the
hole index and `secondChild`. -/
def adjust_heap_down (len : Nat) : Nat → List AStarNode → Nat → Nat → List AStarNode × Nat × Nat
  | 0, c, hole, secondChild => (c, hole, secondChild)
  | fuel + 1, c, hole, secondChild =>
    if secondChild < (len - 1) / 2 then
      let sc := 2 * (secondChild + 1)
      let sc := if (c.getD (sc - 1) default).f_value < (c.getD sc default).f_value then sc - 1 else sc
      adjust_heap_down len fuel (c.set hole (c.getD sc default)) sc sc
    else (c, hole, secondChild)

/-- The algorithm `std::__adjust_heap(first, 0, len, value, comp)`. -/
def adjust_heap (c : List AStarNode) (len : Nat) (value : AStarNode) : List AStarNode :=
  let r := adjust_heap_down len len c 0 0
  let c1 := r.1
  let hole := r.2.1
  let secondChild := r.2.2
  if len % 2 = 0 ∧ secondChild = (len - 2) / 2 then
    let sc := 2 * (secondChild + 1)
    push_heap_loop value (sc - 1) (c1.set hole (c1.getD (sc - 1) default)) (sc - 1)
  else
    push_heap_loop value hole c1 hole

/-- The algorithm `std::pop_heap(c.begin(), c.end(), comp)`: the top is moved to the last
slot and the former last element is sifted into the remaining range. -/
def pop_heap (c : List AStarNode) : List AStarNode :=
  if 1 < c.length then
    adjust_heap (c.set (c.length - 1) (c.getD 0 default)) (c.length - 1)
      (c.getD (c.length - 1) default)
  else c

/-- The member `priority_queue::emplace`: `c.emplace_back(...)` then `push_heap`. -/
def pq_emplace (c : List AStarNode) (n : AStarNode) : List AStarNode :=
  push_heap (c ++ [n])

/-- The member `priority_queue::pop`: `pop_heap` then `c.pop_back()`. -/
def pq_pop (c : List AStarNode) : List AStarNode :=
  (pop_heap c).dropLast

/-! ## The closed set: `std::unordered_map<Position, AStarNode>` -/

abbrev MapType := List (Position × AStarNode)

/-- The keys stored in the map. -/
def map_keys (m : MapType) : List Position := m.map Prod.fst

/-- The member `unordered_map::contains`. -/
def map_contains (m : MapType) (k : Position) : Bool :=
  m.any (fun e => e.1 == k)

/-- The assignment `m[k] = v`: overwrite the entry of `k`, or insert one. -/
def map_assign (m : MapType) (k : Position) (v : AStarNode) : MapType :=
  if map_contains m k then m.map (fun e => if e.1 == k then (k, v) else e)
  else (k, v) :: m

/-- The read `m[k]`: the stored node, or a freshly inserted default-constructed node. -/
def map_index (m : MapType) (k : Position) : AStarNode × MapType :=
  match m.find? (fun e => e.1 == k) with
  | some e => (e.2, m)
  | none => (default, (k, default) :: m)

/-! ## The solver -/

/-- The mutable members of `AStarSolver`: the backing vector of `open_list` and
`closed_list`. -/
structure AStarSolver where
  open_list : List AStarNode
  closed_list : MapType
deriving DecidableEq

/-- A freshly constructed solver: both containers are empty. -/
def AStarSolver.fresh : AStarSolver := ⟨[], []⟩

/-- The member `check_start_and_end_are_valid`. -/
def check_start_and_end_are_valid (area : Area) : Bool :=
  area.get area.start_x area.start_y == AStarType.EMPTY &&
    area.get area.end_x area.end_y == AStarType.EMPTY

/-- The member `predicted_cost`: `llabs(ex - x) + llabs(ey - y)`. -/
def predicted_cost (area : Area) (x y : CoordType) : Nat :=
  (area.end_x - x).natAbs + (area.end_y - y).natAbs

/-- The member `add_node`. -/
def add_node (area : Area) (s : AStarSolver) (x y prev_x prev_y : CoordType)
    (prev_g_val : Nat) : AStarSolver :=
  if map_contains s.closed_list (x, y) then s
  else
    let tentative_g := (prev_g_val + 1) % U64
    let successor := s.open_list.findIdx (fun n => n.position.1 == x && n.position.2 == y)
    if successor < s.open_list.length ∧
        (s.open_list.getD successor default).g_value ≤ tentative_g then s
    else
      let successor_f_val := (tentative_g + predicted_cost area x y) % U64
      if successor < s.open_list.length then
        ⟨s.open_list.set successor
            ⟨(s.open_list.getD successor default).position, (prev_x, prev_y),
              successor_f_val, tentative_g⟩, s.closed_list⟩
      else
        ⟨pq_emplace s.open_list ⟨(x, y), (prev_x, prev_y), successor_f_val, tentative_g⟩,
          s.closed_list⟩

/-- One block of `expand_node`: classify the neighbour and offer it when `EMPTY`. -/
def try_add (area : Area) (node : AStarNode) (s : AStarSolver) (x y : CoordType) :
    AStarSolver :=
  if area.get x y = AStarType.EMPTY then
    add_node area s x y node.position.1 node.position.2 node.g_value
  else s

/-- The member `expand_node`; `allow_diagonal_movement` is the template flag. -/
def expand_node (allow_diagonal_movement : Bool) (area : Area) (s : AStarSolver)
    (node : AStarNode) : AStarSolver :=
  let s := try_add area node s (node.position.1 - 1) node.position.2
  let s := try_add area node s (node.position.1 + 1) node.position.2
  let s := try_add area node s node.position.1 (node.position.2 - 1)
  let s := try_add area node s node.position.1 (node.position.2 + 1)
  if allow_diagonal_movement then
    let s := try_add area node s (node.position.1 - 1) (node.position.2 - 1)
    let s := try_add area node s (node.position.1 + 1) (node.position.2 - 1)
    let s := try_add area node s (node.position.1 - 1) (node.position.2 + 1)
    let s := try_add area node s (node.position.1 + 1) (node.position.2 + 1)
    s
  else s

/-- The reconstruction loop of `solve`: follow `predecessor` links through
`closed_list` while neither coordinate of the predecessor is `-1`. -/
def build_path : Nat → MapType → AStarNode → List Position → Option (List Position × MapType)
  | 0, _, _, _ => none
  | fuel + 1, m, build_node, path =>
    if build_node.predecessor.1 ≠ -1 ∧ build_node.predecessor.2 ≠ -1 then
      build_path fuel (map_index m build_node.predecessor).2
        (map_index m build_node.predecessor).1 (path ++ [build_node.position])
    else some (path, m)

/-- The main loop of `solve`.  `pfuel` bounds the reconstruction loop. -/
def solve_loop (allow_diagonal_movement : Bool) (area : Area) (pfuel : Nat) :
    Nat → AStarSolver → Option (List Position × AStarSolver)
  | 0, _ => none
  | fuel + 1, s =>
    match s.open_list with
    | [] => some ([], s)
    | cur_node :: rest =>
      let closed := map_assign s.closed_list cur_node.position cur_node
      let opened := pq_pop (cur_node :: rest)
      if cur_node.position.1 = area.end_x ∧ cur_node.position.2 = area.end_y then
        match build_path pfuel (map_index closed (area.end_x, area.end_y)).2
            (map_index closed (area.end_x, area.end_y)).1 [] with
        | none => none
        | some (path, m) =>
          some ((path ++ [(area.start_x, area.start_y)]).reverse, ⟨opened, m⟩)
      else
        solve_loop allow_diagonal_movement area pfuel fuel
          (expand_node allow_diagonal_movement area ⟨opened, closed⟩ cur_node)

/-- The member `solve`. -/
def solve (allow_diagonal_movement : Bool) (area : Area) (fuel : Nat) (s : AStarSolver) :
    Option (List Position × AStarSolver) :=
  if !check_start_and_end_are_valid area then some ([], s)
  else
    solve_loop allow_diagonal_movement area fuel fuel
      ⟨pq_emplace s.open_list (AStarNode.ofXY area.start_x area.start_y), s.closed_list⟩

/-- The path returned by `solve`, without the final solver state. -/
def solve_path (allow_diagonal_movement : Bool) (area : Area) (fuel : Nat) (s : AStarSolver) :
    Option (List Position) :=
  (solve allow_diagonal_movement area fuel s).map Prod.fst

/-! ## The lookup of the example grid (`ExampleArea.hpp`) -/

/-- The lookup `Area::get` on a parsed map: `types` is the row-major cell vector, `width`
the row width; the index is computed in `size_t` arithmetic. -/
def area_get (types : List AStarType) (width : Nat) (x y : CoordType) : AStarType :=
  let ux := (x % (U64 : Int)).toNat
  let uy := (y % (U64 : Int)).toNat
  let idx := (uy * width + ux) % U64
  if idx < types.length ∧ ux < width then types.getD idx AStarType.NONE
  else AStarType.NONE

/-! ## Specification vocabulary -/

/-- The start position reported by the grid. -/
def start_pos (area : Area) : Position := (area.start_x, area.start_y)

/-- The end position reported by the grid. -/
def end_pos (area : Area) : Position := (area.end_x, area.end_y)

/-- The grid classifies the position as `EMPTY`. -/
def is_empty (area : Area) (p : Position) : Prop := area.get p.1 p.2 = AStarType.EMPTY

instance (area : Area) (p : Position) : Decidable (is_empty area p) :=
  inferInstanceAs (Decidable (area.get p.1 p.2 = AStarType.EMPTY))

/-- A unit step of the movement mode: `|dx| + |dy| = 1` without diagonal movement,
`max(|dx|, |dy|) = 1` with it. -/
def unit_step (diag : Bool) (p q : Position) : Prop :=
  if diag then max (q.1 - p.1).natAbs (q.2 - p.2).natAbs = 1
  else (q.1 - p.1).natAbs + (q.2 - p.2).natAbs = 1

instance (diag : Bool) (p q : Position) : Decidable (unit_step diag p q) :=
  inferInstanceAs (Decidable (if diag then max (q.1 - p.1).natAbs (q.2 - p.2).natAbs = 1
    else (q.1 - p.1).natAbs + (q.2 - p.2).natAbs = 1))

/-- One move of a walk through `EMPTY` cells: a unit step onto an `EMPTY` cell. -/
def walk_step (diag : Bool) (area : Area) (p q : Position) : Prop :=
  unit_step diag p q ∧ is_empty area q

/-- Some walk through `EMPTY` cells leads from `p` to `q`. -/
def Reachable (diag : Bool) (area : Area) (p q : Position) : Prop :=
  Relation.ReflTransGen (walk_step diag area) p q

/-- The positions collected by the reconstruction loop when it starts at the entry of
key `k`, read off a closed set whose entries are listed newest first. -/
def walk : MapType → Position → List Position
  | [], _ => []
  | e :: m, k =>
    if e.1 = k then
      if e.2.predecessor.1 ≠ -1 ∧ e.2.predecessor.2 ≠ -1 then
        e.2.position :: walk m e.2.predecessor
      else []
    else walk m k

/-- What the solver maintains about a node, relative to the closed keys `ks`: its cell
is `EMPTY`, and it is either the start node with the sentinel predecessor or a node
whose predecessor is closed and one unit step away. -/
def node_ok (diag : Bool) (area : Area) (ks : List Position) (n : AStarNode) : Prop :=
  is_empty area n.position ∧
    ((n.position = start_pos area ∧ n.predecessor = (-1, -1)) ∨
      (n.position ≠ start_pos area ∧ n.predecessor ∈ ks ∧
        unit_step diag n.predecessor n.position))

/-- Well-formedness of the closed set, entries listed newest first: every entry is
stored under its own position, no key repeats, and every node satisfies `node_ok`
with respect to the entries closed before it. -/
def closed_ok (diag : Bool) (area : Area) : MapType → Prop
  | [] => True
  | e :: m =>
    e.2.position = e.1 ∧ e.1 ∉ map_keys m ∧ node_ok diag area (map_keys m) e.2 ∧
      closed_ok diag area m

/-- The loop invariant of `solve` on a freshly constructed solver. -/
structure Inv (diag : Bool) (area : Area) (s : AStarSolver) : Prop where
  closed : closed_ok diag area s.closed_list
  opened : ∀ n ∈ s.open_list,
    node_ok diag area (map_keys s.closed_list) n ∧ n.position ∉ map_keys s.closed_list
  nodup : (s.open_list.map AStarNode.position).Nodup
  started : start_pos area ∈ map_keys s.closed_list ∨
    (s.closed_list = [] ∧ ∃ n, s.open_list = [n] ∧ n.position = start_pos area)

/-- Every `EMPTY` neighbour of a closed position is closed or in the frontier. -/
def Expanded (diag : Bool) (area : Area) (s : AStarSolver) : Prop :=
  ∀ k ∈ map_keys s.closed_list, ∀ q, walk_step diag area k q →
    q ∈ map_keys s.closed_list ∨ q ∈ s.open_list.map AStarNode.position

/-- The candidate positions of `expand_node`, in the order the source visits them. -/
def neighbours (diag : Bool) (p : Position) : List Position :=
  [(p.1 - 1, p.2), (p.1 + 1, p.2), (p.1, p.2 - 1), (p.1, p.2 + 1)] ++
    if diag then [(p.1 - 1, p.2 - 1), (p.1 + 1, p.2 - 1), (p.1 - 1, p.2 + 1), (p.1 + 1, p.2 + 1)]
    else []

/-- No `EMPTY` cell has `-1` as a coordinate, so the sentinel test of the reconstruction
loop never fires on a real predecessor. -/
def NoSentinelCoord (area : Area) : Prop :=
  ∀ p : Position, is_empty area p → p.1 ≠ -1 ∧ p.2 ≠ -1

/-- The state at the head of the main loop: the invariant holds, every closed position
has been expanded, and the end position is not closed yet. -/
def LoopInv (diag : Bool) (area : Area) (s : AStarSolver) : Prop :=
  Inv diag area s ∧ Expanded diag area s ∧ end_pos area ∉ map_keys s.closed_list

/-- What `solve_loop` delivers: either the empty sequence from an exhausted frontier, or
the reversed reconstruction walk from the closed entry of the end position. -/
def PathResult (diag : Bool) (area : Area) (path : List Position) (s : AStarSolver) : Prop :=
  (path = [] ∧ s.open_list = [] ∧ Inv diag area s ∧ Expanded diag area s ∧
      start_pos area ∈ map_keys s.closed_list ∧ end_pos area ∉ map_keys s.closed_list) ∨
    (closed_ok diag area s.closed_list ∧ end_pos area ∈ map_keys s.closed_list ∧
      path = (walk s.closed_list (end_pos area) ++ [start_pos area]).reverse)

/-! ## The example grid `Area` of `ExampleArea.hpp` -/

/-- The members of the example grid `class Area` of `ExampleArea.hpp`. -/
structure ExampleArea where
  types : List AStarType
  width : Nat
  sx : CoordType
  sy : CoordType
  ex : CoordType
  ey : CoordType
deriving DecidableEq

/-- The loop of the constructor `Area::Area(std::string const& map)`; `none` stands for
the thrown `std::invalid_argument`.  `cur_width` is a `size_t`. -/
def ExampleArea.parse_loop : List Char → ExampleArea → Nat → CoordType → CoordType →
    Option ExampleArea
  | [], a, _, _, _ => some a
  | c :: cs, a, cur_width, cx, cy =>
    if c = Char.ofNat 10 then
      ExampleArea.parse_loop cs ⟨a.types, cur_width, a.sx, a.sy, a.ex, a.ey⟩ 0 0 (cy + 1)
    else if c = '#' then
      ExampleArea.parse_loop cs ⟨a.types ++ [AStarType.FILLED], a.width, a.sx, a.sy, a.ex, a.ey⟩
        ((cur_width + 1) % U64) (cx + 1) cy
    else if c = ' ' then
      ExampleArea.parse_loop cs ⟨a.types ++ [AStarType.EMPTY], a.width, a.sx, a.sy, a.ex, a.ey⟩
        ((cur_width + 1) % U64) (cx + 1) cy
    else if c = 'O' then
      ExampleArea.parse_loop cs ⟨a.types ++ [AStarType.EMPTY], a.width, cx, cy, a.ex, a.ey⟩
        ((cur_width + 1) % U64) (cx + 1) cy
    else if c = 'X' then
      ExampleArea.parse_loop cs ⟨a.types ++ [AStarType.EMPTY], a.width, a.sx, a.sy, cx, cy⟩
        ((cur_width + 1) % U64) (cx + 1) cy
    else none

/-- The constructor `Area::Area`.  The source leaves `sx`, `sy`, `ex`, `ey` uninitialised
until an `O` / `X` is read; the embedding starts them at `0`. -/
def ExampleArea.parse (map : String) : Option ExampleArea :=
  ExampleArea.parse_loop map.toList ⟨[], 0, 0, 0, 0, 0⟩ 0 0 0

/-- The example grid as the capability the solver consumes (`Area::get`, `start_x`, ...). -/
def ExampleArea.toArea (a : ExampleArea) : Area :=
  ⟨area_get a.types a.width, a.sx, a.sy, a.ex, a.ey⟩

/-- A finite rectangular grid capability: the cells of `a` at coordinates `0..w-1` by
`0..h-1` (with `h` the number of complete rows), everything outside classified `NONE`. -/
def ExampleArea.toRect (a : ExampleArea) : Area :=
  ⟨fun x y =>
      if 0 ≤ x ∧ x < a.width ∧ 0 ≤ y ∧ y < a.types.length / a.width then
        a.types.getD (y.toNat * a.width + x.toNat) AStarType.NONE
      else AStarType.NONE,
    a.sx, a.sy, a.ex, a.ey⟩

/-! ## Breadth-first search, the oracle of the shortest-path claims -/

/-- Breadth-first search by levels, the oracle for the length of a shortest walk
through `EMPTY` cells: `frontier` holds the cells at distance `dist` from the start,
`visited` every cell reached so far. -/
def bfs_levels (diag : Bool) (area : Area) :
    Nat → List Position → List Position → Nat → Option Nat
  | 0, _, _, _ => none
  | fuel + 1, visited, frontier, dist =>
    if end_pos area ∈ frontier then some dist
    else
      let next := ((frontier.flatMap (neighbours diag)).filter
        (fun q => decide (is_empty area q) && !(visited.contains q))).dedup
      if next = [] then none
      else bfs_levels diag area fuel (visited ++ next) next (dist + 1)

/-- Length of a shortest walk from the start to the end through `EMPTY` cells, by
breadth-first search; `none` when the end is not reached within `fuel` levels. -/
def bfs_shortest (diag : Bool) (area : Area) (fuel : Nat) : Option Nat :=
  if is_empty area (start_pos area) then
    bfs_levels diag area fuel [start_pos area] [start_pos area] 0
  else none

/-- Consecutive positions are one unit step apart. -/
def steps_ok (diag : Bool) : List Position → Bool
  | [] => true
  | [_] => true
  | p :: q :: rest => decide (unit_step diag p q) && steps_ok diag (q :: rest)

/-- A walk through `EMPTY` cells: all positions are `EMPTY` and consecutive positions
are one unit step apart. -/
def is_walk (diag : Bool) (area : Area) (path : List Position) : Bool :=
  path.all (fun p => decide (is_empty area p)) && steps_ok diag path

/-! ## Invariants on recorded costs -/

/-- The node `solve` seeds the frontier with: `AStarNode(sx, sy)`. -/
def seed_node (area : Area) : AStarNode := AStarNode.ofXY area.start_x area.start_y

/-- The seed node is still the whole frontier, or it is stored in the closed set under
the start position. -/
def SeedOK (area : Area) (s : AStarSolver) : Prop :=
  (s.closed_list = [] ∧ s.open_list = [seed_node area]) ∨
    (start_pos area, seed_node area) ∈ s.closed_list

/-- The recorded cost of a node relative to the closed entries `m`: `0` at the start
position, and elsewhere one more (in `uint64_t` arithmetic) than the recorded cost of the
closed entry of its predecessor. -/
def g_ok (area : Area) (m : MapType) (n : AStarNode) : Prop :=
  (n.position = start_pos area → n.g_value = 0) ∧
    (n.position ≠ start_pos area →
      ∃ p, (n.predecessor, p) ∈ m ∧ n.g_value = (p.g_value + 1) % U64)

/-- Every closed entry satisfies `g_ok` relative to the entries closed before it. -/
def closed_g_ok (area : Area) : MapType → Prop
  | [] => True
  | e :: m => g_ok area m e.2 ∧ closed_g_ok area m

/-- The cost invariant of the main loop. -/
def GInv (area : Area) (s : AStarSolver) : Prop :=
  closed_g_ok area s.closed_list ∧ ∀ n ∈ s.open_list, g_ok area s.closed_list n

/-! ## The frontier after expanding the start next to the end -/

/-- What the frontier looks like while the start node is expanded and the end is one
step away: every node was reached from the start at cost 1, the end node has `f_value`
1 and every other node at least 2, and an end node, once present, is the front. -/
def CornerInv (area : Area) (c : List AStarNode) : Prop :=
  (∀ n ∈ c, n.g_value = 1 ∧ n.predecessor = start_pos area ∧
      (n.position = end_pos area → n.f_value = 1) ∧
      (n.position ≠ end_pos area → 2 ≤ n.f_value)) ∧
    ((∃ n ∈ c, n.position = end_pos area) →
      ∃ h rest, c = h :: rest ∧ h.position = end_pos area)

/-! ## The main loop, instrumented -/

/-- The solver right after `solve` emplaced the start node into the frontier of a fresh
solver. -/
def seeded (area : Area) : AStarSolver :=
  ⟨pq_emplace [] (AStarNode.ofXY area.start_x area.start_y), []⟩

/-- The pops of the main loop, in order: each popped `cur_node` together with the solver
state right after `open_list.pop()` and `closed_list[cur_node.position] = cur_node`. -/
def solve_pops (allow_diagonal_movement : Bool) (area : Area) :
    Nat → AStarSolver → List (AStarNode × AStarSolver)
  | 0, _ => []
  | fuel + 1, s =>
    match s.open_list with
    | [] => []
    | cur_node :: rest =>
      let closed := map_assign s.closed_list cur_node.position cur_node
      let opened := pq_pop (cur_node :: rest)
      if cur_node.position.1 = area.end_x ∧ cur_node.position.2 = area.end_y then
        [(cur_node, ⟨opened, closed⟩)]
      else
        (cur_node, ⟨opened, closed⟩) ::
          solve_pops allow_diagonal_movement area fuel
            (expand_node allow_diagonal_movement area ⟨opened, closed⟩ cur_node)

/-- The pops of `solve` on a fresh solver; none when the endpoints are invalid. -/
def fresh_pops (allow_diagonal_movement : Bool) (area : Area) (fuel : Nat) :
    List (AStarNode × AStarSolver) :=
  if !check_start_and_end_are_valid area then []
  else solve_pops allow_diagonal_movement area fuel (seeded area)

/-- The states `expand_node` passes through: the state after each of its blocks, from the
state it is entered with to the state it leaves. -/
def expand_states (allow_diagonal_movement : Bool) (area : Area) (s : AStarSolver)
    (node : AStarNode) : List AStarSolver :=
  (List.range ((neighbours allow_diagonal_movement node.position).length + 1)).map
    (fun j => ((neighbours allow_diagonal_movement node.position).take j).foldl
      (fun s q => try_add area node s q.1 q.2) s)

/-- The solver states the main loop passes through, in order: the state at each loop
head, the state after each pop and store into the closed set, and the state after each
block of `expand_node`. -/
def solve_states (allow_diagonal_movement : Bool) (area : Area) :
    Nat → AStarSolver → List AStarSolver
  | 0, s => [s]
  | fuel + 1, s =>
    match s.open_list with
    | [] => [s]
    | cur_node :: rest =>
      let closed := map_assign s.closed_list cur_node.position cur_node
      let opened := pq_pop (cur_node :: rest)
      if cur_node.position.1 = area.end_x ∧ cur_node.position.2 = area.end_y then
        [s, ⟨opened, closed⟩]
      else
        s :: (expand_states allow_diagonal_movement area ⟨opened, closed⟩ cur_node ++
          solve_states allow_diagonal_movement area fuel
            (expand_node allow_diagonal_movement area ⟨opened, closed⟩ cur_node))

/-- The node stored in the closed set under the key `k`, if there is one. -/
def map_find (m : MapType) (k : Position) : Option AStarNode :=
  (m.find? (fun e => e.1 == k)).map Prod.snd

/-- The binary min-heap property of the backing vector on `f_value`: no element has an
`f_value` below that of its parent at index `(i - 1) / 2`. -/
def is_min_heap (c : List AStarNode) : Bool :=
  (List.range c.length).all
    (fun i => i == 0 || decide ((c.getD ((i - 1) / 2) default).f_value ≤ (c.getD i default).f_value))

/-- The popped node has an `f_value` not above that of any node left in the frontier. -/
def pop_is_min (p : AStarNode × AStarSolver) : Bool :=
  p.2.open_list.all (fun n => decide (p.1.f_value ≤ n.f_value))

/-! ## Concrete inputs -/

/-- The one-row grid `O X`: three `EMPTY` cells, start `(0,0)`, end `(2,0)`. -/
def line_area : Area := ExampleArea.toRect ⟨[.EMPTY, .EMPTY, .EMPTY], 3, 0, 0, 2, 0⟩

/-- A grid capability with negative coordinates: the `EMPTY` cells are the diagonal
cells `(-2,-2)`, `(-1,-1)`, `(0,0)`, `(1,1)`; start `(-2,-2)`, end `(1,1)`. -/
def diagonal_area : Area :=
  ⟨fun x y => if x = y ∧ -2 ≤ x ∧ x ≤ 1 then .EMPTY else .NONE, -2, -2, 1, 1⟩

/-- A grid capability with negative coordinates: the `EMPTY` cells are the row cells
`(-2,0)`, `(-1,0)`, `(0,0)`, `(1,0)`; start `(-2,0)`, end `(1,0)`. -/
def negative_row_area : Area :=
  ⟨fun x y => if y = 0 ∧ -2 ≤ x ∧ x ≤ 1 then .EMPTY else .NONE, -2, 0, 1, 0⟩

/-- A grid capability with negative coordinates: the `EMPTY` cells are `(-2,-2)`,
`(-1,-1)`, `(0,0)`; start `(-2,-2)`, end `(0,0)`. -/
def short_diagonal_area : Area :=
  ⟨fun x y => if x = y ∧ -2 ≤ x ∧ x ≤ 0 then .EMPTY else .NONE, -2, -2, 0, 0⟩

/-- A grid whose end cell `(2,0)` is `FILLED`: row `O #`. -/
def blocked_end_area : Area := ExampleArea.toRect ⟨[.EMPTY, .EMPTY, .FILLED], 3, 0, 0, 2, 0⟩

/-- An unreachable end: row `O#X`. -/
def wall_area : Area := ExampleArea.toRect ⟨[.EMPTY, .FILLED, .EMPTY], 3, 0, 0, 2, 0⟩

/-- The example grid built from the 3 by 7 map
```
  X
 ##
[three empty rows]
 #
 O
```
with start `(1,6)` and end `(2,0)`. -/
def maze_a : ExampleArea :=
  (ExampleArea.parse "  X\n ##\n   \n   \n   \n # \n O \n").getD ⟨[], 0, 0, 0, 0, 0⟩

/-- The example grid built from the 5 by 4 map with rows `#  #X`, ` ##  `, `O# # `,
`  # #`; start `(0,2)`, end `(4,0)`. -/
def maze_b : ExampleArea :=
  (ExampleArea.parse "#  #X\n ##  \nO# # \n  # #\n").getD ⟨[], 0, 0, 0, 0, 0⟩

/-- The example grid built from the 4 by 10 map with rows `   X`, ` ###`, `   #`, ` ## `,
` ## `, `  # `, ` #  `, `O  #`, `#   `, `#  #`; start `(0,7)`, end `(3,0)`. -/
def maze_c : ExampleArea :=
  (ExampleArea.parse
    "   X\n ###\n   #\n ## \n ## \n  # \n #  \nO  #\n#   \n#  #\n").getD
    ⟨[], 0, 0, 0, 0, 0⟩

/-- A grid whose start and end are the same `EMPTY` cell `(1,0)` of a row of three. -/
def same_cell_area : Area := ExampleArea.toRect ⟨[.EMPTY, .EMPTY, .EMPTY], 3, 1, 0, 1, 0⟩

/-- The example grid built from the 2 by 2 map with rows `O#` and ` X`: start `(0,0)`,
end `(1,1)`, and the cell `(1,0)` between them `FILLED`. -/
def corner_grid : ExampleArea :=
  (ExampleArea.parse "O#\n X\n").getD ⟨[], 0, 0, 0, 0, 0⟩

/-- The example grid built from the one-row map `O X`. -/
def row_grid : ExampleArea :=
  (ExampleArea.parse "O X\n").getD ⟨[], 0, 0, 0, 0, 0⟩

/-! ## Heap algorithms permute the backing vector -/

theorem getD_eq_of_lt (l : List AStarNode) (i : Nat) (h : i < l.length) :
    l.getD i default = l[i] := by
  simp [List.getD, List.getElem?_eq_getElem h]

theorem set_getD_self (l : List AStarNode) (i : Nat) :
    l.set i (l.getD i default) = l := by
  induction l generalizing i with
  | nil => rfl
  | cons a t ih =>
    cases i with
    | zero => rfl
    | succ i => simpa [List.getD] using ih i

theorem getD_set_ne (l : List AStarNode) (i j : Nat) (a : AStarNode) (h : i ≠ j) :
    (l.set i a).getD j default = l.getD j default := by
  simp [List.getD, List.getElem?_set, h]

/-- Moving the hole: filling the hole with the element at `j` and putting the value
at `j` instead yields the same multiset. -/
theorem hole_move_perm (l : List AStarNode) (i j : Nat) (a : AStarNode)
    (hi : i < l.length) (hj : j < l.length) :
    ((l.set i (l.getD j default)).set j a).Perm (l.set i a) := by
  by_cases hij : i = j
  · subst hij; rw [List.set_set]
  · rw [List.perm_iff_count]
    intro b
    have h1 : j < (l.set i (l.getD j default)).length := by simpa using hj
    rw [List.count_set _ _ _ _ h1, List.count_set _ _ _ _ hi, List.count_set _ _ _ _ hi]
    have h2 : (l.set i (l.getD j default))[j] = l[j] := by
      simp [List.getElem_set, hij]
    rw [h2, getD_eq_of_lt l j hj]
    have h3 : (if l[i] == b then 1 else 0) ≤ l.count b := by
      have := List.boole_getElem_le_countP (fun x => x == b) l i hi
      simpa [List.count_eq_countP] using this
    split <;> split <;> split <;> omega

theorem push_heap_loop_perm (value : AStarNode) (orig : List AStarNode) :
    ∀ (fuel : Nat) (c : List AStarNode) (hole : Nat), hole < c.length →
      (c.set hole value).Perm orig → (push_heap_loop value fuel c hole).Perm orig := by
  intro fuel
  induction fuel with
  | zero => intro c hole _ hp; simpa [push_heap_loop] using hp
  | succ fuel ih =>
    intro c hole hh hp
    unfold push_heap_loop
    split
    · apply ih
      · simp; omega
      · exact (hole_move_perm c hole ((hole - 1) / 2) value hh (by omega)).trans hp
    · exact hp

theorem push_heap_loop_getD (value : AStarNode) (k : Nat) :
    ∀ (fuel : Nat) (c : List AStarNode) (hole : Nat), hole < k →
      (push_heap_loop value fuel c hole).getD k default = c.getD k default := by
  intro fuel
  induction fuel with
  | zero => intro c hole hk; simp only [push_heap_loop]; exact getD_set_ne c hole k value (by omega)
  | succ fuel ih =>
    intro c hole hk
    unfold push_heap_loop
    split
    · rw [ih _ _ (by omega)]; exact getD_set_ne c hole k _ (by omega)
    · exact getD_set_ne c hole k value (by omega)

theorem push_heap_perm (c : List AStarNode) : (push_heap c).Perm c := by
  unfold push_heap
  cases c with
  | nil => simp [push_heap_loop]
  | cons a t =>
    apply push_heap_loop_perm
    · simp
    · rw [set_getD_self]

theorem pq_emplace_perm (c : List AStarNode) (n : AStarNode) :
    (pq_emplace c n).Perm (n :: c) := by
  unfold pq_emplace
  exact (push_heap_perm _).trans (List.perm_append_singleton n c)

theorem adjust_heap_down_spec (len : Nat) (value top : AStarNode) (orig : List AStarNode) :
    ∀ (fuel : Nat) (c : List AStarNode) (hole sc : Nat), hole < len → len < c.length →
      (c.set hole value).Perm orig → c.getD len default = top →
      (adjust_heap_down len fuel c hole sc).2.1 < len ∧
      len < (adjust_heap_down len fuel c hole sc).1.length ∧
      ((adjust_heap_down len fuel c hole sc).1.set
        (adjust_heap_down len fuel c hole sc).2.1 value).Perm orig ∧
      (adjust_heap_down len fuel c hole sc).1.getD len default = top := by
  intro fuel
  induction fuel with
  | zero => intro c hole sc h1 h2 h3 h4; exact ⟨h1, h2, h3, h4⟩
  | succ fuel ih =>
    intro c hole sc h1 h2 h3 h4
    unfold adjust_heap_down
    split
    · rename_i hsc
      simp only []
      have hb : ∀ j, (j = 2 * (sc + 1) ∨ j = 2 * (sc + 1) - 1) → j < len := by
        intro j hj; omega
      split
      · apply ih
        · exact hb _ (Or.inr rfl)
        · simpa using h2
        · exact (hole_move_perm c hole _ value (by omega)
            (by have := hb _ (Or.inr rfl); omega)).trans h3
        · rw [getD_set_ne c hole len _ (by omega)]; exact h4
      · apply ih
        · exact hb _ (Or.inl rfl)
        · simpa using h2
        · exact (hole_move_perm c hole _ value (by omega)
            (by have := hb _ (Or.inl rfl); omega)).trans h3
        · rw [getD_set_ne c hole len _ (by omega)]; exact h4
    · exact ⟨h1, h2, h3, h4⟩

theorem adjust_heap_spec (c : List AStarNode) (len : Nat) (value top : AStarNode)
    (orig : List AStarNode) (h1 : 0 < len) (h2 : len < c.length)
    (h3 : (c.set 0 value).Perm orig) (h4 : c.getD len default = top) :
    (adjust_heap c len value).Perm orig ∧ (adjust_heap c len value).getD len default = top := by
  obtain ⟨a1, a2, a3, a4⟩ := adjust_heap_down_spec len value top orig len c 0 0 h1 h2 h3 h4
  unfold adjust_heap
  simp only []
  split
  · rename_i hc
    have hlt : 2 * ((adjust_heap_down len len c 0 0).2.2 + 1) - 1 < len := by
      rw [hc.2]; omega
    constructor
    · apply push_heap_loop_perm
      · simp; omega
      · exact (hole_move_perm _ _ _ value (by omega) (by omega)).trans a3
    · rw [push_heap_loop_getD value len _ _ _ hlt, getD_set_ne _ _ _ _ (by omega)]; exact a4
  · constructor
    · exact push_heap_loop_perm value orig _ _ _ (by omega) a3
    · rw [push_heap_loop_getD value len _ _ _ a1]; exact a4

theorem getD_set_self (l : List AStarNode) (i : Nat) (a : AStarNode) (h : i < l.length) :
    (l.set i a).getD i default = a := by
  simp [List.getD, List.getElem?_set, h]

theorem pq_pop_perm (cur : AStarNode) (rest : List AStarNode) :
    (cur :: pq_pop (cur :: rest)).Perm (cur :: rest) := by
  unfold pq_pop pop_heap
  cases rest with
  | nil => simp
  | cons b t =>
    have hlen : 1 < (cur :: b :: t).length := by simp
    rw [if_pos hlen]
    have hl : (cur :: b :: t).length - 1 = t.length + 1 := by simp
    rw [hl]
    have h3 : (((cur :: b :: t).set (t.length + 1) ((cur :: b :: t).getD 0 default)).set 0
        ((cur :: b :: t).getD (t.length + 1) default)).Perm (cur :: b :: t) := by
      have := hole_move_perm (cur :: b :: t) (t.length + 1) 0
        ((cur :: b :: t).getD (t.length + 1) default) (by simp) (by simp)
      rwa [set_getD_self] at this
    have h4 : ((cur :: b :: t).set (t.length + 1) ((cur :: b :: t).getD 0 default)).getD
        (t.length + 1) default = cur := by
      rw [getD_set_self _ _ _ (by simp)]; rfl
    obtain ⟨hp, hg⟩ := adjust_heap_spec _ (t.length + 1) _ cur (cur :: b :: t) (by omega)
      (by simp) h3 h4
    generalize adjust_heap _ _ _ = R at hp hg
    have hRlen : R.length = t.length + 2 := by simpa using hp.length_eq
    have hne : R ≠ [] := by intro h; simp [h] at hRlen
    have hlast : R.getLast hne = cur := by
      rw [List.getLast_eq_getElem]
      rw [getD_eq_of_lt R (t.length + 1) (by omega)] at hg
      simpa [hRlen] using hg
    have hR : R.dropLast ++ [cur] = R := by
      rw [← hlast]; exact List.dropLast_append_getLast hne
    have : (R.dropLast ++ [cur]).Perm (cur :: b :: t) := by rw [hR]; exact hp
    exact (List.perm_append_singleton cur R.dropLast).symm.trans this

/-! ## The closed set as a finite map -/

theorem map_contains_iff (m : MapType) (k : Position) :
    map_contains m k = true ↔ k ∈ map_keys m := by
  unfold map_contains map_keys
  simp only [List.any_eq_true, List.mem_map, beq_iff_eq]

theorem map_assign_fresh (m : MapType) (k : Position) (v : AStarNode)
    (h : k ∉ map_keys m) : map_assign m k v = (k, v) :: m := by
  unfold map_assign
  rw [if_neg]
  rw [map_contains_iff]; exact h

theorem map_index_suffix (pre m : MapType) (e : Position × AStarNode)
    (h : e.1 ∉ map_keys pre) :
    map_index (pre ++ e :: m) e.1 = (e.2, pre ++ e :: m) := by
  unfold map_index
  have : (pre ++ e :: m).find? (fun x => x.1 == e.1) = some e := by
    induction pre with
    | nil => simp
    | cons a t ih =>
      have ha : a.1 ≠ e.1 := by
        intro hh; apply h; simp [map_keys, hh]
      have ht : e.1 ∉ map_keys t := by
        intro hh; apply h; simp only [map_keys, List.map_cons, List.mem_cons]; right; exact hh
      simp only [List.cons_append, List.find?_cons]
      have : (a.1 == e.1) = false := by simpa using ha
      rw [this]; exact ih ht
  simp only [this]

theorem map_index_snd_of_mem (m : MapType) (k : Position) (h : k ∈ map_keys m) :
    (map_index m k).2 = m := by
  unfold map_index
  cases hf : m.find? (fun e => e.1 == k) with
  | some e => rfl
  | none =>
    exfalso
    rw [List.find?_eq_none] at hf
    simp only [map_keys, List.mem_map] at h
    obtain ⟨e, he, rfl⟩ := h
    exact hf e he (by simp)

theorem map_keys_append (a b : MapType) : map_keys (a ++ b) = map_keys a ++ map_keys b := by
  simp [map_keys]

theorem map_keys_cons (e : Position × AStarNode) (m : MapType) :
    map_keys (e :: m) = e.1 :: map_keys m := rfl

/-! ## Well-formed closed sets -/

theorem node_ok_mono (diag : Bool) (area : Area) (ks ks' : List Position) (n : AStarNode)
    (hsub : ∀ k ∈ ks, k ∈ ks') (h : node_ok diag area ks n) : node_ok diag area ks' n := by
  obtain ⟨h1, h2⟩ := h
  refine ⟨h1, ?_⟩
  rcases h2 with h2 | ⟨a, b, c⟩
  · exact Or.inl h2
  · exact Or.inr ⟨a, hsub _ b, c⟩

theorem closed_ok_suffix (diag : Bool) (area : Area) (pre m : MapType)
    (h : closed_ok diag area (pre ++ m)) : closed_ok diag area m := by
  induction pre with
  | nil => exact h
  | cons a t ih => exact ih h.2.2.2

theorem closed_ok_nodup (diag : Bool) (area : Area) (m : MapType)
    (h : closed_ok diag area m) : (map_keys m).Nodup := by
  induction m with
  | nil => exact List.nodup_nil
  | cons e m ih =>
    rw [map_keys_cons, List.nodup_cons]
    exact ⟨h.2.1, ih h.2.2.2⟩

theorem closed_ok_empty (diag : Bool) (area : Area) (m : MapType)
    (h : closed_ok diag area m) : ∀ k ∈ map_keys m, is_empty area k := by
  induction m with
  | nil => intro k hk; simp [map_keys] at hk
  | cons e m ih =>
    intro k hk
    rw [map_keys_cons, List.mem_cons] at hk
    rcases hk with rfl | hk
    · have := h.2.2.1.1
      rwa [h.1] at this
    · exact ih h.2.2.2 k hk

theorem closed_ok_reachable (diag : Bool) (area : Area) (m : MapType)
    (h : closed_ok diag area m) :
    ∀ k ∈ map_keys m, Reachable diag area (start_pos area) k := by
  induction m with
  | nil => intro k hk; simp [map_keys] at hk
  | cons e m ih =>
    intro k hk
    rw [map_keys_cons, List.mem_cons] at hk
    rcases hk with rfl | hk
    · obtain ⟨hpos, hnot, ⟨hemp, hor⟩, hm⟩ := h
      rcases hor with ⟨hs, _⟩ | ⟨_, hp, hstep⟩
      · rw [← hpos, hs]; exact Relation.ReflTransGen.refl
      · rw [hpos] at hstep hemp
        exact Relation.ReflTransGen.tail (ih hm _ hp) ⟨hstep, hemp⟩
    · exact ih h.2.2.2 k hk

/-! ## The reconstruction loop -/

theorem walk_mem (diag : Bool) (area : Area) (m : MapType) (h : closed_ok diag area m) :
    ∀ k, ∀ p ∈ walk m k, p ∈ map_keys m ∧ p ≠ start_pos area := by
  induction m with
  | nil => intro k p hp; simp [walk] at hp
  | cons e m ih =>
    intro k p hp
    obtain ⟨hpos, hnot, ⟨hemp, hor⟩, hm⟩ := h
    unfold walk at hp
    split at hp
    · split at hp
      · rename_i hc
        rw [List.mem_cons] at hp
        rcases hp with rfl | hp
        · constructor
          · rw [hpos, map_keys_cons]; exact List.mem_cons_self _ _
          · rcases hor with ⟨_, hs⟩ | ⟨hne, _, _⟩
            · rw [hs] at hc; exact absurd rfl hc.1
            · exact hne
        · have := ih hm _ p hp
          exact ⟨by rw [map_keys_cons]; exact List.mem_cons_of_mem _ this.1, this.2⟩
      · simp at hp
    · have := ih hm _ p hp
      exact ⟨by rw [map_keys_cons]; exact List.mem_cons_of_mem _ this.1, this.2⟩

theorem walk_nodup (diag : Bool) (area : Area) (m : MapType) (h : closed_ok diag area m) :
    ∀ k, (walk m k).Nodup := by
  induction m with
  | nil => intro k; simp [walk]
  | cons e m ih =>
    intro k
    obtain ⟨hpos, hnot, hn, hm⟩ := h
    unfold walk
    split
    · split
      · rw [List.nodup_cons]
        refine ⟨?_, ih hm _⟩
        intro hp
        have := (walk_mem diag area m hm _ _ hp).1
        rw [hpos] at this
        exact hnot this
      · exact List.nodup_nil
    · exact ih hm _

theorem walk_chain (diag : Bool) (area : Area) (hneg : NoSentinelCoord area) (m : MapType)
    (h : closed_ok diag area m) :
    ∀ k ∈ map_keys m, (walk m k ++ [start_pos area]).head? = some k ∧
      List.Chain' (fun a b => unit_step diag b a) (walk m k ++ [start_pos area]) := by
  induction m with
  | nil => intro k hk; simp [map_keys] at hk
  | cons e m ih =>
    intro k hk
    obtain ⟨hpos, hnot, ⟨hemp, hor⟩, hm⟩ := h
    unfold walk
    split
    · rename_i hek
      split
      · rename_i hc
        rcases hor with ⟨_, hs⟩ | ⟨hne, hp, hstep⟩
        · rw [hs] at hc; exact absurd rfl hc.1
        · obtain ⟨ih1, ih2⟩ := ih hm _ hp
          constructor
          · simp [hpos, hek]
          · rw [List.cons_append, List.chain'_cons']
            refine ⟨?_, ih2⟩
            intro y hy
            rw [ih1] at hy
            cases hy
            exact hstep
      · rename_i hc
        rcases hor with ⟨hs, _⟩ | ⟨hne, hp, hstep⟩
        · constructor
          · simp [← hek, ← hpos, hs]
          · simp
        · exfalso
          have := hneg _ (closed_ok_empty diag area m hm _ hp)
          exact hc this
    · rename_i hek
      rw [map_keys_cons, List.mem_cons] at hk
      rcases hk with rfl | hk
      · exact absurd rfl hek
      · exact ih hm k hk

theorem build_path_walk (diag : Bool) (area : Area) (M : MapType)
    (hM : closed_ok diag area M) :
    ∀ (m pre : MapType), M = pre ++ m → ∀ k ∈ map_keys m, ∀ (fuel : Nat) (path : List Position),
      (build_path fuel M (map_index M k).1 path = none ∧ fuel ≤ m.length) ∨
        build_path fuel M (map_index M k).1 path = some (path ++ walk m k, M) := by
  intro m
  induction m with
  | nil => intro pre _ k hk; simp [map_keys] at hk
  | cons e m ih =>
    intro pre hpre k hk fuel path
    have hnd := closed_ok_nodup diag area M hM
    have hsuf : closed_ok diag area (e :: m) := closed_ok_suffix diag area pre _ (hpre ▸ hM)
    have hpre' : M = (pre ++ [e]) ++ m := by simp [hpre]
    by_cases hek : e.1 = k
    · have hnotpre : e.1 ∉ map_keys pre := by
        rw [hpre, map_keys_append, map_keys_cons] at hnd
        intro hin
        exact (List.nodup_append.1 hnd).2.2 hin (List.mem_cons_self _ _)
      have hidx : map_index M k = (e.2, M) := by
        rw [← hek, hpre]; exact map_index_suffix pre m e hnotpre
      rw [hidx]
      cases fuel with
      | zero => left; exact ⟨rfl, Nat.zero_le _⟩
      | succ fuel =>
        unfold build_path
        simp only [walk, hek, if_true]
        split
        · rename_i hc
          obtain ⟨_, _, ⟨_, hor⟩, _⟩ := hsuf
          rcases hor with ⟨_, hs⟩ | ⟨_, hp, _⟩
          · rw [hs] at hc; exact absurd rfl hc.1
          · have hpM : e.2.predecessor ∈ map_keys M := by
              rw [hpre, map_keys_append, map_keys_cons]
              exact List.mem_append_right _ (List.mem_cons_of_mem _ hp)
            rw [map_index_snd_of_mem M _ hpM]
            rcases ih (pre ++ [e]) hpre' _ hp fuel (path ++ [e.2.position]) with ⟨h1, h2⟩ | h1
            · left; exact ⟨h1, by simp; omega⟩
            · right; rw [h1]; simp
        · right; simp
    · rw [map_keys_cons, List.mem_cons] at hk
      rcases hk with rfl | hk
      · exact absurd rfl hek
      · rcases ih (pre ++ [e]) hpre' k hk fuel path with ⟨h1, h2⟩ | h1
        · left; exact ⟨h1, by simp; omega⟩
        · right; rw [h1]; simp [walk, hek]

/-! ## `add_node` and `expand_node` preserve the invariant -/

theorem list_set_getElem_self {α : Type} (l : List α) (i : Nat) (h : i < l.length) :
    l.set i l[i] = l := by
  induction l generalizing i with
  | nil => rfl
  | cons a t ih =>
    cases i with
    | zero => rfl
    | succ i => simp only [List.set_cons_succ, List.getElem_cons_succ]; rw [ih]

theorem find_pred_iff (x y : CoordType) (n : AStarNode) :
    (n.position.1 == x && n.position.2 == y) = true ↔ n.position = (x, y) := by
  simp only [Bool.and_eq_true, beq_iff_eq]
  constructor
  · rintro ⟨h1, h2⟩; exact Prod.ext h1 h2
  · intro h; rw [h]; exact ⟨rfl, rfl⟩

theorem add_node_spec (diag : Bool) (area : Area) (s : AStarSolver)
    (x y px py : CoordType) (pg : Nat) (hI : Inv diag area s)
    (hs : start_pos area ∈ map_keys s.closed_list) (he : is_empty area (x, y))
    (hp : (px, py) ∈ map_keys s.closed_list) (hstep : unit_step diag (px, py) (x, y)) :
    Inv diag area (add_node area s x y px py pg) ∧
      (add_node area s x y px py pg).closed_list = s.closed_list ∧
      (∀ p ∈ s.open_list.map AStarNode.position,
        p ∈ (add_node area s x y px py pg).open_list.map AStarNode.position) ∧
      ((x, y) ∈ map_keys s.closed_list ∨
        (x, y) ∈ (add_node area s x y px py pg).open_list.map AStarNode.position) := by
  unfold add_node
  split
  · rename_i hc
    exact ⟨hI, rfl, fun p hp => hp, Or.inl ((map_contains_iff _ _).1 hc)⟩
  · rename_i hc
    have hnc : (x, y) ∉ map_keys s.closed_list := fun h => hc ((map_contains_iff _ _).2 h)
    have hne : (x, y) ≠ start_pos area := fun h => hnc (h ▸ hs)
    simp only []
    generalize hidx : s.open_list.findIdx (fun n => n.position.1 == x && n.position.2 == y) = idx
    have hfound : idx < s.open_list.length →
        (s.open_list.getD idx default).position = (x, y) := by
      intro hlt
      rw [getD_eq_of_lt _ _ hlt]
      have hlt' := hlt
      rw [← hidx] at hlt'
      have := @List.findIdx_getElem _ (fun n => n.position.1 == x && n.position.2 == y)
        s.open_list hlt'
      simp only [hidx] at this
      exact (find_pred_iff x y _).1 this
    have hin : idx < s.open_list.length →
        (x, y) ∈ s.open_list.map AStarNode.position := by
      intro hlt
      rw [← hfound hlt, getD_eq_of_lt _ _ hlt]
      exact List.mem_map_of_mem _ (List.getElem_mem hlt)
    split
    · rename_i hskip
      exact ⟨hI, rfl, fun p hp => hp, Or.inr (hin hskip.1)⟩
    · split
      · rename_i hlt
        have hpos : (s.open_list.set idx ⟨(s.open_list.getD idx default).position, (px, py),
            ((pg + 1) % U64 + predicted_cost area x y) % U64, (pg + 1) % U64⟩).map
              AStarNode.position = s.open_list.map AStarNode.position := by
          rw [List.map_set]
          simp only []
          rw [getD_eq_of_lt _ _ hlt]
          have h1 : idx < (s.open_list.map AStarNode.position).length := by simpa using hlt
          have h2 : (s.open_list.map AStarNode.position)[idx] = s.open_list[idx].position := by
            simp
          rw [← h2]
          exact list_set_getElem_self _ idx h1
        refine ⟨⟨hI.closed, ?_, ?_, Or.inl hs⟩, rfl, ?_, Or.inr ?_⟩
        · intro n hn
          rcases List.mem_or_eq_of_mem_set hn with hn | rfl
          · exact hI.opened n hn
          · simp only [hfound hlt]
            exact ⟨⟨he, Or.inr ⟨hne, hp, hstep⟩⟩, hnc⟩
        · simp only []; rw [hpos]; exact hI.nodup
        · intro p hp'; simp only []; rw [hpos]; exact hp'
        · simp only []; rw [hpos]; exact hin hlt
      · rename_i hlt
        have hperm := pq_emplace_perm s.open_list
          ⟨(x, y), (px, py), ((pg + 1) % U64 + predicted_cost area x y) % U64, (pg + 1) % U64⟩
        have hnotin : (x, y) ∉ s.open_list.map AStarNode.position := by
          intro hmem
          rw [List.mem_map] at hmem
          obtain ⟨n, hn, hnp⟩ := hmem
          apply hlt
          rw [← hidx]
          exact List.findIdx_lt_length_of_exists ⟨n, hn, (find_pred_iff x y n).2 hnp⟩
        refine ⟨⟨hI.closed, ?_, ?_, Or.inl hs⟩, rfl, ?_, Or.inr ?_⟩
        · intro n hn
          simp only [] at hn
          rcases List.mem_cons.1 (hperm.mem_iff.1 hn) with rfl | hn
          · exact ⟨⟨he, Or.inr ⟨hne, hp, hstep⟩⟩, hnc⟩
          · exact hI.opened n hn
        · simp only []
          rw [(hperm.map AStarNode.position).nodup_iff, List.map_cons, List.nodup_cons]
          exact ⟨hnotin, hI.nodup⟩
        · intro p hp'
          simp only []
          rw [(hperm.map AStarNode.position).mem_iff, List.map_cons]
          exact List.mem_cons_of_mem _ hp'
        · simp only []
          rw [(hperm.map AStarNode.position).mem_iff, List.map_cons]
          exact List.mem_cons_self _ _

theorem expand_node_eq_foldl (diag : Bool) (area : Area) (s : AStarSolver) (node : AStarNode) :
    expand_node diag area s node =
      (neighbours diag node.position).foldl (fun s q => try_add area node s q.1 q.2) s := by
  cases diag <;> rfl

theorem unit_step_of_mem_neighbours (diag : Bool) (p q : Position)
    (h : q ∈ neighbours diag p) : unit_step diag p q := by
  unfold neighbours at h
  unfold unit_step
  cases diag
  · simp only [Bool.false_eq_true, if_false, List.append_nil, List.mem_cons,
      List.mem_singleton, List.not_mem_nil, or_false] at h ⊢
    rcases h with rfl | rfl | rfl | rfl <;> simp
  · simp only [if_true, List.cons_append, List.nil_append, List.mem_cons,
      List.mem_singleton, List.not_mem_nil, or_false] at h ⊢
    rcases h with rfl | rfl | rfl | rfl | rfl | rfl | rfl | rfl <;> simp

theorem natAbs_le_one (a : Int) (h : a.natAbs ≤ 1) : a = -1 ∨ a = 0 ∨ a = 1 := by omega

theorem step4_cases (a b c d : Int) (h : (c - a).natAbs + (d - b).natAbs = 1) :
    c = a - 1 ∧ d = b ∨ c = a + 1 ∧ d = b ∨ c = a ∧ d = b - 1 ∨ c = a ∧ d = b + 1 := by
  omega

theorem step8_cases (a b c d : Int) (h : max (c - a).natAbs (d - b).natAbs = 1) :
    c = a - 1 ∧ d = b ∨ c = a + 1 ∧ d = b ∨ c = a ∧ d = b - 1 ∨ c = a ∧ d = b + 1 ∨
      c = a - 1 ∧ d = b - 1 ∨ c = a + 1 ∧ d = b - 1 ∨ c = a - 1 ∧ d = b + 1 ∨
        c = a + 1 ∧ d = b + 1 := by
  have h1 : (c - a).natAbs ≤ 1 := by omega
  have h2 : (d - b).natAbs ≤ 1 := by omega
  rcases natAbs_le_one _ h1 with e1 | e1 | e1 <;>
    rcases natAbs_le_one _ h2 with e2 | e2 | e2 <;>
    first
      | (exfalso; rw [e1, e2] at h; simp at h; done)
      | (clear h h1 h2; omega)

theorem mem_neighbours_of_unit_step (diag : Bool) (p q : Position)
    (h : unit_step diag p q) : q ∈ neighbours diag p := by
  obtain ⟨a, b⟩ := p
  obtain ⟨c, d⟩ := q
  unfold unit_step at h
  unfold neighbours
  cases diag
  · simp only [Bool.false_eq_true, if_false, List.append_nil, List.mem_cons,
      List.mem_singleton, List.not_mem_nil, or_false, Prod.mk.injEq] at h ⊢
    exact step4_cases a b c d h
  · simp only [if_true, List.cons_append, List.nil_append, List.mem_cons,
      List.mem_singleton, List.not_mem_nil, or_false, Prod.mk.injEq] at h ⊢
    exact step8_cases a b c d h

theorem try_add_foldl_spec (diag : Bool) (area : Area) (node : AStarNode) :
    ∀ (qs : List Position) (s : AStarSolver), (∀ q ∈ qs, unit_step diag node.position q) →
      Inv diag area s → start_pos area ∈ map_keys s.closed_list →
      node.position ∈ map_keys s.closed_list →
      Inv diag area (qs.foldl (fun s q => try_add area node s q.1 q.2) s) ∧
        (qs.foldl (fun s q => try_add area node s q.1 q.2) s).closed_list = s.closed_list ∧
        (∀ p ∈ s.open_list.map AStarNode.position,
          p ∈ (qs.foldl (fun s q => try_add area node s q.1 q.2) s).open_list.map
            AStarNode.position) ∧
        (∀ q ∈ qs, is_empty area q → q ∈ map_keys s.closed_list ∨
          q ∈ (qs.foldl (fun s q => try_add area node s q.1 q.2) s).open_list.map
            AStarNode.position) := by
  intro qs
  induction qs with
  | nil =>
    intro s _ hI _ _
    exact ⟨hI, rfl, fun p hp => hp, fun q hq => by simp at hq⟩
  | cons q qs ih =>
    intro s hq hI hs hn
    simp only [List.foldl_cons]
    have hstep : Inv diag area (try_add area node s q.1 q.2) ∧
        (try_add area node s q.1 q.2).closed_list = s.closed_list ∧
        (∀ p ∈ s.open_list.map AStarNode.position,
          p ∈ (try_add area node s q.1 q.2).open_list.map AStarNode.position) ∧
        (is_empty area q → q ∈ map_keys s.closed_list ∨
          q ∈ (try_add area node s q.1 q.2).open_list.map AStarNode.position) := by
      unfold try_add
      split
      · rename_i he
        have := add_node_spec diag area s q.1 q.2 node.position.1 node.position.2
          node.g_value hI hs he hn (hq q (List.mem_cons_self _ _))
        exact ⟨this.1, this.2.1, this.2.2.1, fun _ => this.2.2.2⟩
      · rename_i he
        exact ⟨hI, rfl, fun p hp => hp, fun h => absurd h he⟩
    obtain ⟨s1, s2, s3, s4⟩ := hstep
    obtain ⟨r1, r2, r3, r4⟩ := ih (try_add area node s q.1 q.2)
      (fun q' hq' => hq q' (List.mem_cons_of_mem _ hq')) s1 (s2 ▸ hs) (s2 ▸ hn)
    refine ⟨r1, r2.trans s2, fun p hp => r3 p (s3 p hp), ?_⟩
    intro q' hq' he
    rcases List.mem_cons.1 hq' with rfl | hq'
    · rcases s4 he with h | h
      · exact Or.inl h
      · exact Or.inr (r3 _ h)
    · rcases r4 q' hq' he with h | h
      · exact Or.inl (s2 ▸ h)
      · exact Or.inr h

theorem expand_node_spec (diag : Bool) (area : Area) (s : AStarSolver) (node : AStarNode)
    (hI : Inv diag area s) (hs : start_pos area ∈ map_keys s.closed_list)
    (hn : node.position ∈ map_keys s.closed_list) :
    Inv diag area (expand_node diag area s node) ∧
      (expand_node diag area s node).closed_list = s.closed_list ∧
      (∀ p ∈ s.open_list.map AStarNode.position,
        p ∈ (expand_node diag area s node).open_list.map AStarNode.position) ∧
      (∀ q, walk_step diag area node.position q → q ∈ map_keys s.closed_list ∨
        q ∈ (expand_node diag area s node).open_list.map AStarNode.position) := by
  rw [expand_node_eq_foldl]
  obtain ⟨r1, r2, r3, r4⟩ := try_add_foldl_spec diag area node (neighbours diag node.position) s
    (fun q hq => unit_step_of_mem_neighbours diag _ q hq) hI hs hn
  exact ⟨r1, r2, r3, fun q hq => r4 q (mem_neighbours_of_unit_step diag _ q hq.1) hq.2⟩

/-! ## The main loop -/

theorem pop_spec (diag : Bool) (area : Area) (s : AStarSolver) (cur : AStarNode)
    (rest : List AStarNode) (hI : Inv diag area s) (hE : Expanded diag area s)
    (ho : s.open_list = cur :: rest) :
    map_assign s.closed_list cur.position cur = (cur.position, cur) :: s.closed_list ∧
      Inv diag area ⟨pq_pop (cur :: rest), (cur.position, cur) :: s.closed_list⟩ ∧
      start_pos area ∈ map_keys ((cur.position, cur) :: s.closed_list) ∧
      (∀ k ∈ map_keys s.closed_list, ∀ q, walk_step diag area k q →
        q ∈ map_keys ((cur.position, cur) :: s.closed_list) ∨
          q ∈ (pq_pop (cur :: rest)).map AStarNode.position) := by
  have hcur := hI.opened cur (by rw [ho]; exact List.mem_cons_self _ _)
  have hperm : (pq_pop (cur :: rest)).Perm rest := (pq_pop_perm cur rest).cons_inv
  have hnd := hI.nodup
  rw [ho, List.map_cons, List.nodup_cons] at hnd
  have hstart : start_pos area ∈ map_keys ((cur.position, cur) :: s.closed_list) := by
    rw [map_keys_cons]
    rcases hI.started with h | ⟨_, n, hn, hp⟩
    · exact List.mem_cons_of_mem _ h
    · rw [ho] at hn
      injection hn with h1 _
      rw [h1, hp]; exact List.mem_cons_self _ _
  refine ⟨map_assign_fresh _ _ _ hcur.2, ⟨?_, ?_, ?_, Or.inl hstart⟩, hstart, ?_⟩
  · exact ⟨rfl, hcur.2, hcur.1, hI.closed⟩
  · intro n hn
    have hn' : n ∈ rest := hperm.mem_iff.1 hn
    have := hI.opened n (by rw [ho]; exact List.mem_cons_of_mem _ hn')
    refine ⟨node_ok_mono diag area _ _ n (fun k hk => List.mem_cons_of_mem _ hk) this.1, ?_⟩
    rw [map_keys_cons, List.mem_cons]
    rintro (h | h)
    · have h' : n.position = cur.position := h
      exact hnd.1 (h' ▸ List.mem_map_of_mem AStarNode.position hn')
    · exact this.2 h
  · exact (hperm.map AStarNode.position).nodup_iff.2 hnd.2
  · intro k hk q hq
    rcases hE k hk q hq with h | h
    · exact Or.inl (List.mem_cons_of_mem _ h)
    · rw [ho, List.map_cons, List.mem_cons] at h
      rcases h with h | h
      · left; rw [h, map_keys_cons]; exact List.mem_cons_self _ _
      · right; exact (hperm.map AStarNode.position).mem_iff.2 h

theorem iter_spec (diag : Bool) (area : Area) (s : AStarSolver) (cur : AStarNode)
    (rest : List AStarNode) (hL : LoopInv diag area s) (ho : s.open_list = cur :: rest)
    (hne : cur.position ≠ end_pos area) :
    LoopInv diag area
        (expand_node diag area ⟨pq_pop (cur :: rest), (cur.position, cur) :: s.closed_list⟩ cur) ∧
      (expand_node diag area ⟨pq_pop (cur :: rest), (cur.position, cur) :: s.closed_list⟩
        cur).closed_list = (cur.position, cur) :: s.closed_list := by
  obtain ⟨hI, hE, hG⟩ := hL
  obtain ⟨_, p2, p3, p4⟩ := pop_spec diag area s cur rest hI hE ho
  obtain ⟨r1, r2, r3, r4⟩ := expand_node_spec diag area
    ⟨pq_pop (cur :: rest), (cur.position, cur) :: s.closed_list⟩ cur p2 p3
    (by rw [map_keys_cons]; exact List.mem_cons_self _ _)
  refine ⟨⟨r1, ?_, ?_⟩, r2⟩
  · intro k hk q hq
    rw [r2] at hk ⊢
    rw [map_keys_cons, List.mem_cons] at hk
    rcases hk with rfl | hk
    · exact r4 q hq
    · rcases p4 k hk q hq with h | h
      · exact Or.inl h
      · exact Or.inr (r3 _ h)
  · rw [r2, map_keys_cons, List.mem_cons]
    rintro (h | h)
    · exact hne h.symm
    · exact hG h

theorem goal_spec (diag : Bool) (area : Area) (s : AStarSolver) (cur : AStarNode)
    (rest : List AStarNode) (hL : LoopInv diag area s) (ho : s.open_list = cur :: rest)
    (he : cur.position = end_pos area) (pfuel : Nat) :
    closed_ok diag area ((cur.position, cur) :: s.closed_list) ∧
      ((build_path pfuel
          (map_index ((cur.position, cur) :: s.closed_list) (area.end_x, area.end_y)).2
          (map_index ((cur.position, cur) :: s.closed_list) (area.end_x, area.end_y)).1 [] = none ∧
          pfuel ≤ s.closed_list.length + 1) ∨
        build_path pfuel
          (map_index ((cur.position, cur) :: s.closed_list) (area.end_x, area.end_y)).2
          (map_index ((cur.position, cur) :: s.closed_list) (area.end_x, area.end_y)).1 [] =
          some (walk ((cur.position, cur) :: s.closed_list) (end_pos area),
            (cur.position, cur) :: s.closed_list)) := by
  obtain ⟨hI, hE, hG⟩ := hL
  obtain ⟨_, p2, _, _⟩ := pop_spec diag area s cur rest hI hE ho
  have hmem : end_pos area ∈ map_keys ((cur.position, cur) :: s.closed_list) := by
    rw [map_keys_cons, he]; exact List.mem_cons_self _ _
  refine ⟨p2.closed, ?_⟩
  change (build_path pfuel (map_index _ (end_pos area)).2 (map_index _ (end_pos area)).1 [] = none ∧ _) ∨
    build_path pfuel (map_index _ (end_pos area)).2 (map_index _ (end_pos area)).1 [] = _
  rw [map_index_snd_of_mem _ _ hmem]
  have := build_path_walk diag area _ p2.closed ((cur.position, cur) :: s.closed_list) []
    rfl (end_pos area) hmem pfuel []
  simpa using this

theorem end_cond_iff (area : Area) (n : AStarNode) :
    (n.position.1 = area.end_x ∧ n.position.2 = area.end_y) ↔ n.position = end_pos area := by
  unfold end_pos
  constructor
  · rintro ⟨h1, h2⟩; exact Prod.ext h1 h2
  · intro h; rw [h]; exact ⟨rfl, rfl⟩

theorem solve_loop_post (diag : Bool) (area : Area) (pfuel : Nat) :
    ∀ (fuel : Nat) (s : AStarSolver), LoopInv diag area s →
      ∀ (path : List Position) (s' : AStarSolver),
        solve_loop diag area pfuel fuel s = some (path, s') → PathResult diag area path s' := by
  intro fuel
  induction fuel with
  | zero => intro s _ path s' h; simp [solve_loop] at h
  | succ fuel ih =>
    intro s hL path s' h
    unfold solve_loop at h
    split at h
    · rename_i ho
      injection h with h
      injection h with h1 h2
      subst h1 h2
      left
      refine ⟨rfl, ho, hL.1, hL.2.1, ?_, hL.2.2⟩
      rcases hL.1.started with hs | ⟨_, n, hn, _⟩
      · exact hs
      · rw [ho] at hn; cases hn
    · rename_i cur rest ho
      have hassign := (pop_spec diag area s cur rest hL.1 hL.2.1 ho).1
      simp only [hassign] at h
      split at h
      · rename_i hc
        have he := (end_cond_iff area cur).1 hc
        obtain ⟨g1, g2⟩ := goal_spec diag area s cur rest hL ho he pfuel
        rcases g2 with ⟨g2, _⟩ | g2
        · rw [g2] at h; cases h
        · rw [g2] at h
          injection h with h
          injection h with h1 h2
          subst h1 h2
          right
          refine ⟨g1, ?_, rfl⟩
          rw [map_keys_cons, he]; exact List.mem_cons_self _ _
      · rename_i hc
        have hne : cur.position ≠ end_pos area := fun hh => hc ((end_cond_iff area cur).2 hh)
        exact ih _ (iter_spec diag area s cur rest hL ho hne).1 path s' h

theorem closed_length_le (diag : Bool) (area : Area) (cells : List Position)
    (hcells : ∀ p, is_empty area p → p ∈ cells) (m : MapType) (h : closed_ok diag area m) :
    m.length ≤ cells.length := by
  have hsub : map_keys m ⊆ cells := fun k hk => hcells k (closed_ok_empty diag area m h k hk)
  have := (List.subperm_of_subset (closed_ok_nodup diag area m h) hsub).length_le
  simpa [map_keys] using this

theorem solve_loop_total (diag : Bool) (area : Area) (pfuel : Nat) (cells : List Position)
    (hcells : ∀ p, is_empty area p → p ∈ cells) (hp : cells.length < pfuel) :
    ∀ (fuel : Nat) (s : AStarSolver), LoopInv diag area s →
      cells.length + 1 ≤ fuel + s.closed_list.length →
      ∃ r, solve_loop diag area pfuel fuel s = some r := by
  intro fuel
  induction fuel with
  | zero =>
    intro s hL hle
    have := closed_length_le diag area cells hcells _ hL.1.closed
    omega
  | succ fuel ih =>
    intro s hL hle
    unfold solve_loop
    split
    · exact ⟨_, rfl⟩
    · rename_i cur rest ho
      have hassign := (pop_spec diag area s cur rest hL.1 hL.2.1 ho).1
      simp only [hassign]
      split
      · rename_i hc
        have he := (end_cond_iff area cur).1 hc
        obtain ⟨g1, g2⟩ := goal_spec diag area s cur rest hL ho he pfuel
        have hlen := closed_length_le diag area cells hcells _ g1
        simp only [List.length_cons] at hlen
        rcases g2 with ⟨_, g2⟩ | g2
        · omega
        · rw [g2]; exact ⟨_, rfl⟩
      · rename_i hc
        have hne : cur.position ≠ end_pos area := fun hh => hc ((end_cond_iff area cur).2 hh)
        obtain ⟨i1, i2⟩ := iter_spec diag area s cur rest hL ho hne
        apply ih _ i1
        rw [i2]; simp only [List.length_cons]; omega

/-- The state right after `solve` seeded the frontier of a fresh solver. -/
theorem seeded_loop_inv (diag : Bool) (area : Area)
    (hv : check_start_and_end_are_valid area = true) :
    Inv diag area ⟨pq_emplace [] (AStarNode.ofXY area.start_x area.start_y), []⟩ ∧
      Expanded diag area ⟨pq_emplace [] (AStarNode.ofXY area.start_x area.start_y), []⟩ := by
  have hemp : is_empty area (start_pos area) := by
    unfold check_start_and_end_are_valid at hv
    simp only [Bool.and_eq_true, beq_iff_eq] at hv
    exact hv.1
  have hq : pq_emplace [] (AStarNode.ofXY area.start_x area.start_y) =
      [AStarNode.ofXY area.start_x area.start_y] := rfl
  rw [hq]
  constructor
  · refine ⟨trivial, ?_, ?_, Or.inr ⟨rfl, _, rfl, rfl⟩⟩
    · intro n hn
      rw [List.mem_singleton] at hn
      subst hn
      exact ⟨⟨hemp, Or.inl ⟨rfl, rfl⟩⟩, by simp [map_keys]⟩
    · simp
  · intro k hk; simp [map_keys] at hk

/-! ## `solve` on a freshly constructed solver -/

theorem valid_start_empty (area : Area) (hv : check_start_and_end_are_valid area = true) :
    is_empty area (start_pos area) ∧ is_empty area (end_pos area) := by
  unfold check_start_and_end_are_valid at hv
  simp only [Bool.and_eq_true, beq_iff_eq] at hv
  exact hv

theorem solve_fresh_cases (diag : Bool) (area : Area) (fuel : Nat) (path : List Position)
    (s' : AStarSolver) (h : solve diag area fuel AStarSolver.fresh = some (path, s')) :
    (check_start_and_end_are_valid area = false ∧ path = [] ∧ s' = AStarSolver.fresh) ∨
      (check_start_and_end_are_valid area = true ∧ PathResult diag area path s') := by
  unfold solve at h
  cases hv : check_start_and_end_are_valid area with
  | false =>
    left
    simp only [hv, Bool.not_false, if_true] at h
    injection h with h
    injection h with h1 h2
    exact ⟨rfl, h1.symm, h2.symm⟩
  | true =>
    right
    simp only [hv, Bool.not_true, Bool.false_eq_true, if_false] at h
    obtain ⟨i1, i2⟩ := seeded_loop_inv diag area hv
    exact ⟨rfl, solve_loop_post diag area fuel fuel _ ⟨i1, i2, by simp [map_keys, AStarSolver.fresh]⟩
      path s' h⟩

theorem solve_path_some (diag : Bool) (area : Area) (fuel : Nat) (path : List Position)
    (h : solve_path diag area fuel AStarSolver.fresh = some path) :
    ∃ s', solve diag area fuel AStarSolver.fresh = some (path, s') := by
  unfold solve_path at h
  cases hs : solve diag area fuel AStarSolver.fresh with
  | none => rw [hs] at h; cases h
  | some r =>
    rw [hs] at h
    simp only [Option.map_some', Option.some.injEq] at h
    exact ⟨r.2, by rw [← h]⟩

/-- A non-empty result of `solve` on a fresh solver is the reversed reconstruction walk
through a well-formed closed set that contains the end position. -/
theorem solve_path_shape (diag : Bool) (area : Area) (fuel : Nat) (path : List Position)
    (h : solve_path diag area fuel AStarSolver.fresh = some path) (hne : path ≠ []) :
    is_empty area (start_pos area) ∧
      ∃ m, closed_ok diag area m ∧ end_pos area ∈ map_keys m ∧
        path = (walk m (end_pos area) ++ [start_pos area]).reverse := by
  obtain ⟨s', hs⟩ := solve_path_some diag area fuel path h
  rcases solve_fresh_cases diag area fuel path s' hs with ⟨_, h1, _⟩ | ⟨hv, hr⟩
  · exact absurd h1 hne
  · rcases hr with ⟨h1, _⟩ | ⟨c1, c2, c3⟩
    · exact absurd h1 hne
    · exact ⟨(valid_start_empty area hv).1, s'.closed_list, c1, c2, c3⟩

theorem rect_no_sentinel (a : ExampleArea) : NoSentinelCoord a.toRect := by
  intro p hp
  unfold is_empty ExampleArea.toRect at hp
  simp only [] at hp
  split at hp
  · rename_i hc
    have h1 : (0 : Int) ≤ p.1 := hc.1
    have h2 : (0 : Int) ≤ p.2 := hc.2.2.1
    constructor
    · intro h; rw [h] at h1; exact absurd h1 (by decide)
    · intro h; rw [h] at h2; exact absurd h2 (by decide)
  · cases hp

theorem walk_head (diag : Bool) (area : Area) (m : MapType) (h : closed_ok diag area m)
    (k : Position) (hk : k ∈ map_keys m)
    (hnb : ∀ p, is_empty area p → unit_step diag p k → p.1 ≠ -1 ∧ p.2 ≠ -1) :
    (walk m k ++ [start_pos area]).head? = some k := by
  induction m with
  | nil => simp [map_keys] at hk
  | cons e m ih =>
    obtain ⟨hpos, hnot, ⟨hemp, hor⟩, hm⟩ := h
    unfold walk
    split
    · rename_i hek
      split
      · simp [hpos, hek]
      · rename_i hc
        rcases hor with ⟨hs, _⟩ | ⟨_, hp, hstep⟩
        · simp [← hek, ← hpos, hs]
        · exfalso
          rw [hpos, hek] at hstep
          exact hc (hnb _ (closed_ok_empty diag area m hm _ hp) hstep)
    · rename_i hek
      rw [map_keys_cons, List.mem_cons] at hk
      rcases hk with rfl | hk
      · exact absurd rfl hek
      · exact ih hm hk

theorem near_one_not_sentinel (x y : Int) (hy : y = 0)
    (h : (1 - x).natAbs + (0 - y).natAbs = 1) : x ≠ -1 ∧ y ≠ -1 := by
  omega

theorem negative_row_near_end :
    ∀ p, is_empty negative_row_area p → unit_step false p (end_pos negative_row_area) →
      p.1 ≠ -1 ∧ p.2 ≠ -1 := by
  intro p hp hs
  obtain ⟨x, y⟩ := p
  unfold is_empty negative_row_area at hp
  simp only [] at hp
  split at hp
  · rename_i hc
    unfold unit_step end_pos negative_row_area at hs
    simp only [Bool.false_eq_true, if_false] at hs
    exact near_one_not_sentinel x y hc.1 hs
  · cases hp

/-! ## Claims about returned paths -/

/-- C3, as stated, fails: with diagonal movement on the grid whose `EMPTY` cells are
`(-2,-2)`, `(-1,-1)`, `(0,0)`, `(1,1)` the solver returns `[(-2,-2), (1,1)]`, and without
diagonal movement on the row `(-2,0)`..`(1,0)` it returns `[(-2,0), (1,0)]`; neither pair
is one unit step apart. -/
theorem contiguity_counterexample :
    solve_path true diagonal_area 10 AStarSolver.fresh = some [(-2, -2), (1, 1)] ∧
      ¬ unit_step true (-2, -2) (1, 1) ∧
      solve_path false negative_row_area 10 AStarSolver.fresh = some [(-2, 0), (1, 0)] ∧
      ¬ unit_step false (-2, 0) (1, 0) := by
  decide

/-- C3 (amended): on every grid capability in which no `EMPTY` cell has `-1` as a
coordinate, each consecutive pair of positions of a path returned by `solve` on a fresh
solver is one unit step apart (`|dx| + |dy| = 1` without diagonal movement,
`max(|dx|, |dy|) = 1` with it). -/
theorem path_contiguous (diag : Bool) (area : Area) (hneg : NoSentinelCoord area)
    (fuel : Nat) (path : List Position)
    (h : solve_path diag area fuel AStarSolver.fresh = some path) (hne : path ≠ []) :
    List.Chain' (unit_step diag) path := by
  obtain ⟨_, m, c1, c2, c3⟩ := solve_path_shape diag area fuel path h hne
  rw [c3, List.chain'_reverse]
  exact (walk_chain diag area hneg m c1 _ c2).2

/-- The row `O X` satisfies the hypotheses of `path_contiguous`. -/
theorem path_contiguous_witness :
    solve_path false line_area 10 AStarSolver.fresh = some [(0, 0), (1, 0), (2, 0)] ∧
      List.Chain' (unit_step false) [(0, 0), (1, 0), (2, 0)] :=
  ⟨by decide, path_contiguous false line_area (rect_no_sentinel _) 10 _ (by decide) (by decide)⟩

/-- C4, as stated, fails: with diagonal movement on the grid whose `EMPTY` cells are
`(-2,-2)`, `(-1,-1)`, `(0,0)` (start `(-2,-2)`, end `(0,0)`) the solver returns the
non-empty path `[(-2,-2)]`, whose last position is not the end. -/
theorem endpoints_counterexample :
    solve_path true short_diagonal_area 10 AStarSolver.fresh = some [(-2, -2)] ∧
      [((-2 : Int), (-2 : Int))].getLast? ≠ some (end_pos short_diagonal_area) := by
  decide

/-- C4 (amended): on every grid capability, a non-empty path returned by `solve` on a
fresh solver starts at the grid's start; its last position is the grid's end whenever no
`EMPTY` cell one unit step away from the end has `-1` as a coordinate, in particular on
every grid in which no `EMPTY` cell has `-1` as a coordinate. -/
theorem path_endpoints (diag : Bool) (area : Area) (fuel : Nat) (path : List Position)
    (h : solve_path diag area fuel AStarSolver.fresh = some path) (hne : path ≠ []) :
    path.head? = some (start_pos area) ∧
      ((∀ p, is_empty area p → unit_step diag p (end_pos area) → p.1 ≠ -1 ∧ p.2 ≠ -1) →
        path.getLast? = some (end_pos area)) ∧
      (NoSentinelCoord area → path.getLast? = some (end_pos area)) := by
  obtain ⟨_, m, c1, c2, c3⟩ := solve_path_shape diag area fuel path h hne
  rw [c3, List.head?_reverse, List.getLast?_reverse]
  exact ⟨by simp, fun hnb => walk_head diag area m c1 _ c2 hnb,
    fun hneg => walk_head diag area m c1 _ c2 (fun p hp _ => hneg p hp)⟩

/-- The row `(-2,0)`..`(1,0)`, which has the `EMPTY` cell `(-1,0)` away from the end,
satisfies the hypotheses of `path_endpoints`: the returned path `[(-2,0), (1,0)]` starts
at the start and ends at the end. -/
theorem path_endpoints_witness :
    solve_path false negative_row_area 10 AStarSolver.fresh = some [(-2, 0), (1, 0)] ∧
      is_empty negative_row_area (-1, 0) ∧
      ([(-2, 0), (1, 0)] : List Position).head? = some (start_pos negative_row_area) ∧
      ([(-2, 0), (1, 0)] : List Position).getLast? = some (end_pos negative_row_area) :=
  ⟨by decide, by decide,
    (path_endpoints false negative_row_area 10 _ (by decide) (by decide)).1,
    (path_endpoints false negative_row_area 10 _ (by decide) (by decide)).2.1
      negative_row_near_end⟩

/-- C9: on every grid capability, the positions of a non-empty path returned by `solve`
on a fresh solver are pairwise distinct. -/
theorem path_nodup (diag : Bool) (area : Area) (fuel : Nat) (path : List Position)
    (h : solve_path diag area fuel AStarSolver.fresh = some path) (hne : path ≠ []) :
    path.Nodup := by
  obtain ⟨_, m, c1, c2, c3⟩ := solve_path_shape diag area fuel path h hne
  rw [c3, List.nodup_reverse]
  refine List.Nodup.append (walk_nodup diag area m c1 _) (List.nodup_singleton _) ?_
  intro p hp hs
  rw [List.mem_singleton] at hs
  exact (walk_mem diag area m c1 _ p hp).2 hs

/-- The diagonal grid with negative coordinates satisfies the hypotheses of `path_nodup`. -/
theorem path_nodup_witness :
    solve_path true diagonal_area 10 AStarSolver.fresh = some [(-2, -2), (1, 1)] ∧
      ([(-2, -2), (1, 1)] : List Position).Nodup :=
  ⟨by decide, path_nodup true diagonal_area 10 _ (by decide) (by decide)⟩

/-- C10: on every grid capability, every position of a non-empty path returned by
`solve` on a fresh solver (start, intermediates and end) is classified `EMPTY`. -/
theorem path_cells_empty (diag : Bool) (area : Area) (fuel : Nat) (path : List Position)
    (h : solve_path diag area fuel AStarSolver.fresh = some path) (hne : path ≠ []) :
    ∀ p ∈ path, is_empty area p := by
  obtain ⟨hs, m, c1, c2, c3⟩ := solve_path_shape diag area fuel path h hne
  intro p hp
  rw [c3, List.mem_reverse, List.mem_append, List.mem_singleton] at hp
  rcases hp with hp | rfl
  · exact closed_ok_empty diag area m c1 p (walk_mem diag area m c1 _ p hp).1
  · exact hs

/-- The diagonal grid with negative coordinates satisfies the hypotheses of
`path_cells_empty`. -/
theorem path_cells_empty_witness :
    solve_path true diagonal_area 10 AStarSolver.fresh = some [(-2, -2), (1, 1)] ∧
      ∀ p ∈ ([(-2, -2), (1, 1)] : List Position), is_empty diagonal_area p :=
  ⟨by decide, path_cells_empty true diagonal_area 10 _ (by decide) (by decide)⟩

/-- C6: when the start cell or the end cell is not classified `EMPTY`, `solve` returns the
empty sequence and leaves the frontier and the closed set as they were, whatever the
state of the solver and the movement mode. -/
theorem invalid_endpoints_empty (diag : Bool) (area : Area) (fuel : Nat) (s : AStarSolver)
    (h : ¬ is_empty area (start_pos area) ∨ ¬ is_empty area (end_pos area)) :
    solve diag area fuel s = some ([], s) := by
  unfold solve
  have hv : check_start_and_end_are_valid area = false := by
    cases hc : check_start_and_end_are_valid area with
    | false => rfl
    | true =>
      have := valid_start_empty area hc
      rcases h with h | h
      · exact absurd this.1 h
      · exact absurd this.2 h
  simp [hv]

/-- The row `O #` with a non-empty solver state satisfies the hypothesis of
`invalid_endpoints_empty`. -/
theorem invalid_endpoints_empty_witness :
    ¬ is_empty blocked_end_area (end_pos blocked_end_area) ∧
      solve true blocked_end_area 0 ⟨[AStarNode.ofXY 5 5], [((0, 0), AStarNode.ofXY 0 0)]⟩ =
        some ([], ⟨[AStarNode.ofXY 5 5], [((0, 0), AStarNode.ofXY 0 0)]⟩) :=
  ⟨by decide, invalid_endpoints_empty true blocked_end_area 0 _ (Or.inr (by decide))⟩

/-! ## Reachability -/

theorem exhausted_closed_reachable (diag : Bool) (area : Area) (s : AStarSolver)
    (ho : s.open_list = []) (hE : Expanded diag area s)
    (hs : start_pos area ∈ map_keys s.closed_list) :
    ∀ q, Reachable diag area (start_pos area) q → q ∈ map_keys s.closed_list := by
  intro q hq
  induction hq with
  | refl => exact hs
  | tail _ hstep ih =>
    rcases hE _ ih _ hstep with h | h
    · exact h
    · rw [ho] at h; simp at h

theorem path_result_empty_iff (diag : Bool) (area : Area) (path : List Position)
    (s : AStarSolver) (h : PathResult diag area path s) :
    path = [] ↔ ¬ Reachable diag area (start_pos area) (end_pos area) := by
  rcases h with ⟨h1, h2, _, h4, h5, h6⟩ | ⟨c1, c2, c3⟩
  · constructor
    · intro _ hr
      exact h6 (exhausted_closed_reachable diag area s h2 h4 h5 _ hr)
    · intro _; exact h1
  · constructor
    · intro hp; rw [c3] at hp; simp at hp
    · intro hn; exact absurd (closed_ok_reachable diag area _ c1 _ c2) hn

/-- C5: on a grid with finitely many `EMPTY` cells (all listed in `cells`) whose start and
end are `EMPTY`, `solve` on a fresh solver returns (any fuel above the number of cells
suffices), and the returned sequence is empty exactly when no walk through `EMPTY`
cells, by unit steps of the movement mode, connects start to end. -/
theorem empty_iff_unreachable (diag : Bool) (area : Area) (cells : List Position)
    (hcells : ∀ p, is_empty area p → p ∈ cells) (hs : is_empty area (start_pos area))
    (he : is_empty area (end_pos area)) (fuel : Nat) (hf : cells.length < fuel) :
    ∃ path s', solve diag area fuel AStarSolver.fresh = some (path, s') ∧
      (path = [] ↔ ¬ Reachable diag area (start_pos area) (end_pos area)) := by
  have hv : check_start_and_end_are_valid area = true := by
    unfold check_start_and_end_are_valid
    simp only [Bool.and_eq_true, beq_iff_eq]
    exact ⟨hs, he⟩
  obtain ⟨i1, i2⟩ := seeded_loop_inv diag area hv
  have hL : LoopInv diag area ⟨pq_emplace [] (AStarNode.ofXY area.start_x area.start_y), []⟩ :=
    ⟨i1, i2, by simp [map_keys]⟩
  obtain ⟨r, hr⟩ := solve_loop_total diag area fuel cells hcells hf fuel _ hL
    (by simp only [List.length_nil]; omega)
  have hsolve : solve diag area fuel AStarSolver.fresh = some (r.1, r.2) := by
    unfold solve
    simp only [hv, Bool.not_true, Bool.false_eq_true, if_false]
    exact hr
  exact ⟨r.1, r.2, hsolve,
    path_result_empty_iff diag area r.1 r.2 (solve_loop_post diag area fuel fuel _ hL r.1 r.2 hr)⟩

theorem line_cases (x y : Int) (h1 : 0 ≤ x) (h2 : x < 3) (h3 : 0 ≤ y) (h4 : y < 1) :
    (x, y) ∈ ([(0, 0), (1, 0), (2, 0)] : List (Int × Int)) := by
  have hy : y = 0 := by omega
  have hx : x = 0 ∨ x = 1 ∨ x = 2 := by omega
  subst hy
  rcases hx with rfl | rfl | rfl <;> simp

theorem line_area_cells :
    ∀ p, is_empty line_area p → p ∈ ([(0, 0), (1, 0), (2, 0)] : List Position) := by
  intro p hp
  obtain ⟨x, y⟩ := p
  unfold is_empty line_area ExampleArea.toRect at hp
  simp only [] at hp
  split at hp
  · rename_i hc
    simp only [List.length_cons, List.length_nil, Nat.reduceAdd, Nat.reduceDiv,
      Nat.cast_ofNat, Nat.cast_one] at hc
    exact line_cases x y hc.1 hc.2.1 hc.2.2.1 hc.2.2.2
  · cases hp

/-- The row `O X` with its three listed cells satisfies the hypotheses of
`empty_iff_unreachable`. -/
theorem empty_iff_unreachable_witness :
    ∃ path s', solve false line_area 4 AStarSolver.fresh = some (path, s') ∧
      (path = [] ↔ ¬ Reachable false line_area (start_pos line_area) (end_pos line_area)) :=
  empty_iff_unreachable false line_area [(0, 0), (1, 0), (2, 0)] line_area_cells
    (by decide) (by decide) 4 (by decide)

/-! ## Calling `solve` again on the same solver -/

theorem map_keys_assign_of_mem (m : MapType) (k : Position) (v : AStarNode)
    (h : k ∈ map_keys m) : map_keys (map_assign m k v) = map_keys m := by
  unfold map_assign
  rw [if_pos ((map_contains_iff m k).2 h)]
  unfold map_keys
  rw [List.map_map]
  apply List.map_congr_left
  intro e _
  simp only [Function.comp]
  split
  · rename_i hk; exact (beq_iff_eq.1 hk).symm
  · rfl

theorem try_add_noop (area : Area) (node : AStarNode) (s : AStarSolver) (q : Position)
    (h : is_empty area q → q ∈ map_keys s.closed_list) : try_add area node s q.1 q.2 = s := by
  unfold try_add
  split
  · rename_i he
    unfold add_node
    rw [if_pos ((map_contains_iff _ _).2 (h he))]
  · rfl

theorem expand_node_noop (diag : Bool) (area : Area) (s : AStarSolver) (node : AStarNode)
    (h : ∀ q, walk_step diag area node.position q → q ∈ map_keys s.closed_list) :
    expand_node diag area s node = s := by
  rw [expand_node_eq_foldl]
  have : ∀ qs : List Position, (∀ q ∈ qs, unit_step diag node.position q) →
      qs.foldl (fun s q => try_add area node s q.1 q.2) s = s := by
    intro qs
    induction qs with
    | nil => intro _; rfl
    | cons q qs ih =>
      intro hq
      rw [List.foldl_cons,
        try_add_noop area node s q (fun he => h q ⟨hq q (List.mem_cons_self _ _), he⟩)]
      exact ih (fun q' hq' => hq q' (List.mem_cons_of_mem _ hq'))
  exact this _ (fun q hq => unit_step_of_mem_neighbours diag _ q hq)

theorem solve_start_is_end (diag : Bool) (area : Area)
    (hv : check_start_and_end_are_valid area = true) (hse : start_pos area = end_pos area)
    (fuel : Nat) (s : AStarSolver) (ho : s.open_list = [])
    (hc : s.closed_list = [] ∨
      s.closed_list = [(start_pos area, AStarNode.ofXY area.start_x area.start_y)]) :
    solve diag area (fuel + 1) s = some ([start_pos area],
      ⟨[], [(start_pos area, AStarNode.ofXY area.start_x area.start_y)]⟩) := by
  have hq : pq_emplace [] (AStarNode.ofXY area.start_x area.start_y) =
      [AStarNode.ofXY area.start_x area.start_y] := rfl
  have hpop : pq_pop [AStarNode.ofXY area.start_x area.start_y] = [] := rfl
  have hx : area.start_x = area.end_x := congrArg Prod.fst hse
  have hy : area.start_y = area.end_y := congrArg Prod.snd hse
  have hassign : map_assign s.closed_list (AStarNode.ofXY area.start_x area.start_y).position
      (AStarNode.ofXY area.start_x area.start_y) =
      [(start_pos area, AStarNode.ofXY area.start_x area.start_y)] := by
    rcases hc with hc | hc
    · rw [hc]; rfl
    · rw [hc]
      simp [map_assign, map_contains, AStarNode.ofXY, start_pos]
  unfold solve
  simp only [hv, Bool.not_true, Bool.false_eq_true, if_false, ho, hq]
  unfold solve_loop
  simp only [hassign, hpop]
  have hcond : (AStarNode.ofXY area.start_x area.start_y).position.1 = area.end_x ∧
      (AStarNode.ofXY area.start_x area.start_y).position.2 = area.end_y := ⟨hx, hy⟩
  rw [if_pos hcond]
  have hidx : map_index [(start_pos area, AStarNode.ofXY area.start_x area.start_y)]
      (area.end_x, area.end_y) = (AStarNode.ofXY area.start_x area.start_y,
        [(start_pos area, AStarNode.ofXY area.start_x area.start_y)]) := by
    simp [map_index, start_pos, hx, hy]
  rw [hidx]
  simp [build_path, AStarNode.ofXY, start_pos]

/-- C7, as stated, fails: on the row `O X` the first call returns
`[(0,0), (1,0), (2,0)]` and the second call on the same solver returns the empty
sequence, because the end position is still in the closed set. -/
theorem repeated_solve_counterexample :
    (solve false line_area 10 AStarSolver.fresh).map Prod.fst =
        some [(0, 0), (1, 0), (2, 0)] ∧
      ((solve false line_area 10 AStarSolver.fresh).bind
        (fun r => solve false line_area 10 r.2)).map Prod.fst = some [] := by
  decide

/-- C7 (amended): the frontier and the closed set persist between calls.  When the first
call on a fresh solver returned the empty sequence, or when start and end coincide, a
second call on the same solver returns the same sequence as the first. -/
theorem repeated_solve_same (diag : Bool) (area : Area) (fuel : Nat) (path : List Position)
    (s1 : AStarSolver) (h1 : solve diag area fuel AStarSolver.fresh = some (path, s1))
    (hc : path = [] ∨ start_pos area = end_pos area) (fuel2 : Nat) (hf : 2 ≤ fuel2) :
    ∃ s2, solve diag area fuel2 s1 = some (path, s2) := by
  rcases solve_fresh_cases diag area fuel path s1 h1 with ⟨hv, hp, _⟩ | ⟨hv, hr⟩
  · refine ⟨s1, ?_⟩
    unfold solve
    simp [hv, hp]
  · by_cases hse : start_pos area = end_pos area
    · cases fuel with
      | zero =>
        unfold solve at h1
        simp [hv, solve_loop] at h1
      | succ fuel =>
        rw [solve_start_is_end diag area hv hse fuel _ rfl (Or.inl rfl)] at h1
        injection h1 with h1
        injection h1 with hp hs
        subst hp hs
        obtain ⟨f2, rfl⟩ : ∃ f2, fuel2 = f2 + 1 := ⟨fuel2 - 1, by omega⟩
        exact ⟨_, solve_start_is_end diag area hv hse f2 _ rfl (Or.inr rfl)⟩
    · have hpe : path = [] := by
        rcases hc with h | h
        · exact h
        · exact absurd h hse
      rcases hr with ⟨_, h2, _, h4, h5, _⟩ | ⟨_, _, c3⟩
      · obtain ⟨f2, rfl⟩ : ∃ f2, fuel2 = f2 + 2 := ⟨fuel2 - 2, by omega⟩
        have hq : pq_emplace [] (AStarNode.ofXY area.start_x area.start_y) =
            [AStarNode.ofXY area.start_x area.start_y] := rfl
        have hpop : pq_pop [AStarNode.ofXY area.start_x area.start_y] = [] := rfl
        have hkeys := map_keys_assign_of_mem s1.closed_list (start_pos area)
          (AStarNode.ofXY area.start_x area.start_y) h5
        have hcond : ¬ ((AStarNode.ofXY area.start_x area.start_y).position.1 = area.end_x ∧
            (AStarNode.ofXY area.start_x area.start_y).position.2 = area.end_y) := by
          intro h
          exact hse ((end_cond_iff area _).1 h)
        have hnoop := expand_node_noop diag area
          ⟨[], map_assign s1.closed_list (start_pos area)
            (AStarNode.ofXY area.start_x area.start_y)⟩
          (AStarNode.ofXY area.start_x area.start_y) (by
            intro q hq'
            simp only [hkeys]
            rcases h4 _ h5 q hq' with h | h
            · exact h
            · rw [h2] at h; simp at h)
        refine ⟨⟨[], map_assign s1.closed_list (start_pos area)
          (AStarNode.ofXY area.start_x area.start_y)⟩, ?_⟩
        unfold solve
        simp only [hv, Bool.not_true, Bool.false_eq_true, if_false, h2, hq]
        unfold solve_loop
        simp only [hpop]
        rw [if_neg hcond]
        change solve_loop diag area (f2 + 2) (f2 + 1) (expand_node diag area
          ⟨[], map_assign s1.closed_list (start_pos area)
            (AStarNode.ofXY area.start_x area.start_y)⟩
          (AStarNode.ofXY area.start_x area.start_y)) = _
        rw [hnoop, hpe]
        unfold solve_loop
        rfl
      · rw [c3] at hpe; simp at hpe

/-- The row `O#X`, whose first call exhausts the frontier, satisfies the hypotheses of
`repeated_solve_same`. -/
theorem repeated_solve_same_witness :
    ∃ s1 s2, solve false wall_area 5 AStarSolver.fresh = some ([], s1) ∧
      solve false wall_area 5 s1 = some ([], s2) := by
  have h : solve false wall_area 5 AStarSolver.fresh =
      some ([], ⟨[], [((0, 0), AStarNode.ofXY 0 0)]⟩) := by decide
  obtain ⟨s2, h2⟩ := repeated_solve_same false wall_area 5 [] _ h (Or.inl rfl) 5 (by decide)
  exact ⟨_, s2, h, h2⟩

/-! ## Shortest paths -/

/-- C1 fails on the code: on the 3 by 7 grid `maze_a` the solver without diagonal
movement returns a path of 11 steps, while breadth-first search finds 9 steps and the
listed walk of 9 steps goes through `EMPTY` cells only.  The same path is returned
through `Area::get`. -/
theorem four_directional_not_shortest :
    solve_path false maze_a.toRect 40 AStarSolver.fresh =
        some [(1, 6), (2, 6), (2, 5), (2, 4), (2, 3), (2, 2), (1, 2), (0, 2), (0, 1), (0, 0),
          (1, 0), (2, 0)] ∧
      solve_path false maze_a.toArea 40 AStarSolver.fresh =
        solve_path false maze_a.toRect 40 AStarSolver.fresh ∧
      bfs_shortest false maze_a.toRect 40 = some 9 ∧
      is_walk false maze_a.toRect
        [(1, 6), (0, 6), (0, 5), (0, 4), (0, 3), (0, 2), (0, 1), (0, 0), (1, 0), (2, 0)] = true := by
  decide!

/-- C2 fails on the code: on the 5 by 4 grid `maze_b` the solver with diagonal movement
returns a path of 5 steps, while breadth-first search finds 4 steps and the listed walk
of 4 steps goes through `EMPTY` cells only.  The same path is returned through
`Area::get`. -/
theorem eight_directional_not_shortest :
    solve_path true maze_b.toRect 40 AStarSolver.fresh =
        some [(0, 2), (0, 1), (1, 0), (2, 0), (3, 1), (4, 0)] ∧
      solve_path true maze_b.toArea 40 AStarSolver.fresh =
        solve_path true maze_b.toRect 40 AStarSolver.fresh ∧
      bfs_shortest true maze_b.toRect 40 = some 4 ∧
      is_walk true maze_b.toRect [(0, 2), (1, 3), (2, 2), (3, 1), (4, 0)] = true := by
  decide!

/-- C8 fails on the code: on the 4 by 10 grid `maze_c` the solver without diagonal
movement returns 11 positions and the solver with diagonal movement returns 12. -/
theorem diagonal_path_longer :
    solve_path false maze_c.toRect 60 AStarSolver.fresh =
        some [(0, 7), (0, 6), (0, 5), (0, 4), (0, 3), (0, 2), (0, 1), (0, 0), (1, 0), (2, 0),
          (3, 0)] ∧
      solve_path true maze_c.toRect 60 AStarSolver.fresh =
        some [(0, 7), (1, 7), (2, 6), (3, 5), (3, 4), (3, 3), (2, 2), (1, 2), (0, 1), (1, 0),
          (2, 0), (3, 0)] ∧
      solve_path false maze_c.toArea 60 AStarSolver.fresh =
        solve_path false maze_c.toRect 60 AStarSolver.fresh ∧
      solve_path true maze_c.toArea 60 AStarSolver.fresh =
        solve_path true maze_c.toRect 60 AStarSolver.fresh := by
  decide!

/-! ## Start equals end -/

/-- C11: when start and end are the same `EMPTY` cell, `solve` on a fresh solver returns
exactly the one-element sequence `[start]`, in either movement mode (one pass of each
loop suffices). -/
theorem start_equals_end (diag : Bool) (area : Area) (hs : is_empty area (start_pos area))
    (hse : start_pos area = end_pos area) (fuel : Nat) (hf : 1 ≤ fuel) :
    solve_path diag area fuel AStarSolver.fresh = some [start_pos area] := by
  have hv : check_start_and_end_are_valid area = true := by
    unfold check_start_and_end_are_valid
    simp only [Bool.and_eq_true, beq_iff_eq]
    exact ⟨hs, by rw [hse] at hs; exact hs⟩
  obtain ⟨f, rfl⟩ : ∃ f, fuel = f + 1 := ⟨fuel - 1, by omega⟩
  unfold solve_path
  rw [solve_start_is_end diag area hv hse f AStarSolver.fresh rfl (Or.inl rfl)]
  rfl

/-- The row of three with start and end both at `(1,0)` satisfies the hypotheses of
`start_equals_end`. -/
theorem start_equals_end_witness :
    is_empty same_cell_area (start_pos same_cell_area) ∧
      solve_path true same_cell_area 1 AStarSolver.fresh = some [(1, 0)] :=
  ⟨by decide, start_equals_end true same_cell_area (by decide) (by decide) 1 (by decide)⟩

/-! ## Termination and the number of pops -/

theorem solve_pops_length (diag : Bool) (area : Area) (cells : List Position)
    (hcells : ∀ p, is_empty area p → p ∈ cells) :
    ∀ (fuel : Nat) (s : AStarSolver), LoopInv diag area s →
      (solve_pops diag area fuel s).length + s.closed_list.length ≤ cells.length := by
  intro fuel
  induction fuel with
  | zero =>
    intro s hL
    simp only [solve_pops, List.length_nil, Nat.zero_add]
    exact closed_length_le diag area cells hcells _ hL.1.closed
  | succ fuel ih =>
    intro s hL
    unfold solve_pops
    split
    · simp only [List.length_nil, Nat.zero_add]
      exact closed_length_le diag area cells hcells _ hL.1.closed
    · rename_i cur rest ho
      have hassign := (pop_spec diag area s cur rest hL.1 hL.2.1 ho).1
      simp only [hassign]
      split
      · rename_i hc
        have he := (end_cond_iff area cur).1 hc
        obtain ⟨g1, _⟩ := goal_spec diag area s cur rest hL ho he 0
        have hlen := closed_length_le diag area cells hcells _ g1
        simp only [List.length_cons] at hlen
        simp only [List.length_singleton]
        omega
      · rename_i hc
        have hne : cur.position ≠ end_pos area := fun hh => hc ((end_cond_iff area cur).2 hh)
        obtain ⟨i1, i2⟩ := iter_spec diag area s cur rest hL ho hne
        have := ih _ i1
        rw [i2] at this
        simp only [List.length_cons] at this ⊢
        omega

/-- Every pop adds one entry to the closed set: the closed set returned by the loop has
as many entries more than the initial one as there were pops. -/
theorem solve_loop_closed_length (diag : Bool) (area : Area) (pfuel : Nat) :
    ∀ (fuel : Nat) (s : AStarSolver), LoopInv diag area s →
      ∀ (path : List Position) (s' : AStarSolver),
        solve_loop diag area pfuel fuel s = some (path, s') →
        s'.closed_list.length = s.closed_list.length + (solve_pops diag area fuel s).length := by
  intro fuel
  induction fuel with
  | zero => intro s _ path s' h; simp [solve_loop] at h
  | succ fuel ih =>
    intro s hL path s' h
    unfold solve_loop at h
    unfold solve_pops
    split at h
    · rename_i ho
      injection h with h
      injection h with h1 h2
      subst h2
      simp [ho]
    · rename_i cur rest ho
      have hassign := (pop_spec diag area s cur rest hL.1 hL.2.1 ho).1
      simp only [hassign] at h
      simp only [ho, hassign]
      split at h
      · rename_i hc
        have he := (end_cond_iff area cur).1 hc
        obtain ⟨_, g2⟩ := goal_spec diag area s cur rest hL ho he pfuel
        rw [if_pos hc]
        rcases g2 with ⟨g2, _⟩ | g2
        · rw [g2] at h; cases h
        · rw [g2] at h
          injection h with h
          injection h with h1 h2
          subst h2
          simp
      · rename_i hc
        have hne : cur.position ≠ end_pos area := fun hh => hc ((end_cond_iff area cur).2 hh)
        obtain ⟨i1, i2⟩ := iter_spec diag area s cur rest hL ho hne
        rw [if_neg hc]
        have := ih _ i1 path s' h
        rw [i2] at this
        simp only [List.length_cons] at this ⊢
        omega

theorem seeded_loop (diag : Bool) (area : Area)
    (hv : check_start_and_end_are_valid area = true) : LoopInv diag area (seeded area) := by
  obtain ⟨i1, i2⟩ := seeded_loop_inv diag area hv
  exact ⟨i1, i2, by simp [map_keys, seeded]⟩

theorem solve_fresh_eq (diag : Bool) (area : Area) (fuel : Nat)
    (hv : check_start_and_end_are_valid area = true) :
    solve diag area fuel AStarSolver.fresh = solve_loop diag area fuel fuel (seeded area) := by
  unfold solve
  simp only [hv, Bool.not_true, Bool.false_eq_true, if_false]
  rfl

/-- C12: on a grid with finitely many `EMPTY` cells (all listed in `cells`), `solve` on a
fresh solver returns for every fuel above the number of cells; every pop of the main
loop adds one entry to the closed set, and the loop pops at most as many nodes as
there are listed cells. -/
theorem terminates_within_cells (diag : Bool) (area : Area) (cells : List Position)
    (hcells : ∀ p, is_empty area p → p ∈ cells) (fuel : Nat) (hf : cells.length < fuel) :
    ∃ path s', solve diag area fuel AStarSolver.fresh = some (path, s') ∧
      s'.closed_list.length = (fresh_pops diag area fuel).length ∧
      (fresh_pops diag area fuel).length ≤ cells.length := by
  cases hv : check_start_and_end_are_valid area with
  | false =>
    refine ⟨[], AStarSolver.fresh, ?_, ?_, ?_⟩
    · unfold solve; simp [hv]
    · simp [fresh_pops, hv, AStarSolver.fresh]
    · simp [fresh_pops, hv]
  | true =>
    have hL := seeded_loop diag area hv
    obtain ⟨r, hr⟩ := solve_loop_total diag area fuel cells hcells hf fuel _ hL
      (by simp only [seeded, List.length_nil]; omega)
    have hpops : fresh_pops diag area fuel = solve_pops diag area fuel (seeded area) := by
      simp [fresh_pops, hv]
    refine ⟨r.1, r.2, ?_, ?_, ?_⟩
    · rw [solve_fresh_eq diag area fuel hv]; exact hr
    · have := solve_loop_closed_length diag area fuel fuel _ hL r.1 r.2 hr
      rw [hpops, this]
      simp [seeded]
    · have := solve_pops_length diag area cells hcells fuel _ hL
      rw [hpops]
      omega

/-- The row `O X` with its three listed cells satisfies the hypotheses of
`terminates_within_cells`. -/
theorem terminates_within_cells_witness :
    ∃ path s', solve false line_area 4 AStarSolver.fresh = some (path, s') ∧
      s'.closed_list.length = (fresh_pops false line_area 4).length ∧
      (fresh_pops false line_area 4).length ≤ 3 :=
  terminates_within_cells false line_area [(0, 0), (1, 0), (2, 0)] line_area_cells 4
    (by decide)

/-! ## The priority order of the frontier -/

/-- C14 fails on the code: in the run without diagonal movement on the 3 by 7 grid
`maze_a`, the twelfth pop takes the node at `(0,3)` with `f_value` 11 while the node at
`(0,4)` with `f_value` 9 stays in the frontier. -/
theorem pop_not_minimal :
    ((fresh_pops false maze_a.toRect 40)[11]?).map
        (fun p => (p.1, p.2.open_list, pop_is_min p)) =
      some (⟨(0, 3), (1, 3), 11, 6⟩, [⟨(0, 4), (0, 5), 9, 3⟩, ⟨(0, 2), (1, 2), 11, 7⟩], false) := by
  decide!

/-- C15 fails on the code: in the run without diagonal movement on the 3 by 7 grid
`maze_a`, after the eleventh pop (node `(0,5)`, `g_value` 2) the backing vector is a
min-heap and holds a node for `(0,4)` with `g_value` 5; `add_node(0, 4, 0, 5, 2)`
overwrites that node with `g_value` 3, `f_value` 9 and predecessor `(0,5)` where it
stands, at index 2 below a parent of `f_value` 11, and the vector is no min-heap
afterwards. -/
theorem relaxation_breaks_heap :
    ((fresh_pops false maze_a.toRect 40)[10]?).map (fun p => (p.1.position, p.1.g_value)) =
        some ((0, 5), 2) ∧
      ((fresh_pops false maze_a.toRect 40)[10]?).map (fun p => p.2.open_list) =
        some [⟨(0, 3), (1, 3), 11, 6⟩, ⟨(0, 2), (1, 2), 11, 7⟩, ⟨(0, 4), (1, 4), 11, 5⟩] ∧
      ((fresh_pops false maze_a.toRect 40)[10]?).map (fun p => is_min_heap p.2.open_list) =
        some true ∧
      ((fresh_pops false maze_a.toRect 40)[10]?).map
          (fun p => (add_node maze_a.toRect p.2 0 4 0 5 p.1.g_value).open_list) =
        some [⟨(0, 3), (1, 3), 11, 6⟩, ⟨(0, 2), (1, 2), 11, 7⟩, ⟨(0, 4), (0, 5), 9, 3⟩] ∧
      ((fresh_pops false maze_a.toRect 40)[10]?).map
          (fun p => is_min_heap (add_node maze_a.toRect p.2 0 4 0 5 p.1.g_value).open_list) =
        some false := by
  decide!

/-! ## The heuristic -/

/-- C17 fails on the code: on the 2 by 2 grid with rows `O#` and ` X` the cell `(0,0)` is
`EMPTY`, the end `(1,1)` is one diagonal step away (breadth-first search gives 1), and
`predicted_cost(0, 0)` is 2. -/
theorem heuristic_overestimates :
    is_empty corner_grid.toRect (0, 0) ∧
      is_walk true corner_grid.toRect [(0, 0), (1, 1)] = true ∧
      end_pos corner_grid.toRect = (1, 1) ∧
      bfs_shortest true corner_grid.toRect 10 = some 1 ∧
      predicted_cost corner_grid.toRect 0 0 = 2 := by
  decide!

/-! ## The example grid -/

/-- C19 fails on the code: for the grid built from the one-row map `O X` (width 3, one
row), `Area::get(0, 6148914691236517206)` has `y` beyond the only row, yet the index
`y * 3 + 0` is `2` modulo `2 ^ 64` and the lookup returns the `EMPTY` cell `(2,0)`. -/
theorem area_get_wraps :
    ExampleArea.parse "O X\n" = some ⟨[.EMPTY, .EMPTY, .EMPTY], 3, 0, 0, 2, 0⟩ ∧
      (1 : Int) ≤ 6148914691236517206 ∧ (6148914691236517206 : Int) < 2 ^ 63 ∧
      (6148914691236517206 * 3 + 0) % U64 = 2 ∧
      area_get row_grid.types row_grid.width 0 6148914691236517206 = AStarType.EMPTY ∧
      area_get row_grid.types row_grid.width 2 0 = AStarType.EMPTY ∧
      area_get row_grid.types row_grid.width 3 0 = AStarType.NONE ∧
      area_get row_grid.types row_grid.width (-1) 0 = AStarType.NONE := by
  decide!

/-! ## Carrying a further invariant through the main loop -/

/-- The state in which the main loop closes `cur_node`. -/
theorem solve_loop_final (diag : Bool) (area : Area) (pfuel : Nat) (X : AStarSolver → Prop)
    (hstep : ∀ (s : AStarSolver) (cur : AStarNode) (rest : List AStarNode),
      LoopInv diag area s → X s → s.open_list = cur :: rest → cur.position ≠ end_pos area →
      X (expand_node diag area ⟨pq_pop (cur :: rest), (cur.position, cur) :: s.closed_list⟩ cur)) :
    ∀ (fuel : Nat) (s : AStarSolver), LoopInv diag area s → X s →
      ∀ (path : List Position) (s' : AStarSolver),
        solve_loop diag area pfuel fuel s = some (path, s') →
        (path = [] ∧ s'.open_list = [] ∧ LoopInv diag area s' ∧ X s') ∨
          ∃ s0 cur rest, LoopInv diag area s0 ∧ X s0 ∧ s0.open_list = cur :: rest ∧
            cur.position = end_pos area ∧
            s' = ⟨pq_pop (cur :: rest), (cur.position, cur) :: s0.closed_list⟩ ∧
            path = (walk s'.closed_list (end_pos area) ++ [start_pos area]).reverse := by
  intro fuel
  induction fuel with
  | zero => intro s _ _ path s' h; simp [solve_loop] at h
  | succ fuel ih =>
    intro s hL hX path s' h
    unfold solve_loop at h
    split at h
    · rename_i ho
      injection h with h
      injection h with h1 h2
      subst h1 h2
      exact Or.inl ⟨rfl, ho, hL, hX⟩
    · rename_i cur rest ho
      have hassign := (pop_spec diag area s cur rest hL.1 hL.2.1 ho).1
      simp only [hassign] at h
      split at h
      · rename_i hc
        have he := (end_cond_iff area cur).1 hc
        obtain ⟨_, g2⟩ := goal_spec diag area s cur rest hL ho he pfuel
        rcases g2 with ⟨g2, _⟩ | g2
        · rw [g2] at h; cases h
        · rw [g2] at h
          injection h with h
          injection h with h1 h2
          subst h1 h2
          exact Or.inr ⟨s, cur, rest, hL, hX, ho, he, rfl, rfl⟩
      · rename_i hc
        have hne : cur.position ≠ end_pos area := fun hh => hc ((end_cond_iff area cur).2 hh)
        exact ih _ (iter_spec diag area s cur rest hL ho hne).1
          (hstep s cur rest hL hX ho hne) path s' h

theorem add_node_mem (area : Area) (s : AStarSolver) (x y px py : CoordType) (pg : Nat) :
    ∀ n ∈ (add_node area s x y px py pg).open_list, n ∈ s.open_list ∨
      n = ⟨(x, y), (px, py), ((pg + 1) % U64 + predicted_cost area x y) % U64, (pg + 1) % U64⟩ := by
  intro n hn
  unfold add_node at hn
  split at hn
  · exact Or.inl hn
  · simp only [] at hn
    generalize hidx : s.open_list.findIdx (fun n => n.position.1 == x && n.position.2 == y) = idx
      at hn
    split at hn
    · exact Or.inl hn
    · split at hn
      · rename_i hlt
        have hpos : (s.open_list.getD idx default).position = (x, y) := by
          rw [getD_eq_of_lt _ _ hlt]
          have hlt' := hlt
          rw [← hidx] at hlt'
          have := @List.findIdx_getElem _ (fun n => n.position.1 == x && n.position.2 == y)
            s.open_list hlt'
          simp only [hidx] at this
          exact (find_pred_iff x y _).1 this
        rcases List.mem_or_eq_of_mem_set hn with h | h
        · exact Or.inl h
        · right; rw [h, hpos]
      · rcases List.mem_cons.1 ((pq_emplace_perm _ _).mem_iff.1 hn) with h | h
        · exact Or.inr h
        · exact Or.inl h

theorem expand_node_mem (diag : Bool) (area : Area) (s : AStarSolver) (node : AStarNode) :
    ∀ n ∈ (expand_node diag area s node).open_list, n ∈ s.open_list ∨
      (n.predecessor = node.position ∧ n.g_value = (node.g_value + 1) % U64 ∧
        n.f_value = (n.g_value + predicted_cost area n.position.1 n.position.2) % U64) := by
  rw [expand_node_eq_foldl]
  generalize neighbours diag node.position = qs
  induction qs generalizing s with
  | nil => intro n hn; exact Or.inl hn
  | cons q qs ih =>
    intro n hn
    rw [List.foldl_cons] at hn
    rcases ih _ n hn with h | h
    · unfold try_add at h
      split at h
      · rcases add_node_mem area s q.1 q.2 _ _ _ n h with h | h
        · exact Or.inl h
        · right; rw [h]; exact ⟨rfl, rfl, rfl⟩
      · exact Or.inl h
    · exact Or.inr h

/-! ## The seed node -/

theorem map_find_of_mem (m : MapType) (hnd : (map_keys m).Nodup) (k : Position)
    (v : AStarNode) (h : (k, v) ∈ m) : map_find m k = some v := by
  induction m with
  | nil => cases h
  | cons e m ih =>
    rw [map_keys_cons, List.nodup_cons] at hnd
    unfold map_find
    by_cases hek : e.1 = k
    · have he : e = (k, v) := by
        rcases List.mem_cons.1 h with h | h
        · exact h.symm
        · exfalso
          apply hnd.1
          rw [hek]
          exact List.mem_map_of_mem Prod.fst h
      simp [List.find?_cons, he]
    · have hm : (k, v) ∈ m := by
        rcases List.mem_cons.1 h with h | h
        · exfalso; apply hek; rw [← h]
        · exact h
      have hb : (e.1 == k) = false := by simpa using hek
      simp only [List.find?_cons, hb]
      exact ih hnd.2 hm

theorem seed_ok_step (diag : Bool) (area : Area) (s : AStarSolver) (cur : AStarNode)
    (rest : List AStarNode) (_hL : LoopInv diag area s) (hX : SeedOK area s)
    (ho : s.open_list = cur :: rest) :
    (start_pos area, seed_node area) ∈ (cur.position, cur) :: s.closed_list := by
  rcases hX with ⟨_, h2⟩ | h
  · rw [ho] at h2
    injection h2 with h2 _
    rw [h2]
    exact List.mem_cons_self _ _
  · exact List.mem_cons_of_mem _ h

theorem seed_stored (diag : Bool) (area : Area)
    (hv : check_start_and_end_are_valid area = true) (fuel : Nat) (path : List Position)
    (s' : AStarSolver) (h : solve diag area fuel AStarSolver.fresh = some (path, s')) :
    (start_pos area, seed_node area) ∈ s'.closed_list ∧ (map_keys s'.closed_list).Nodup := by
  rw [solve_fresh_eq diag area fuel hv] at h
  have hX : SeedOK area (seeded area) := Or.inl ⟨rfl, rfl⟩
  have hstep : ∀ (s : AStarSolver) (cur : AStarNode) (rest : List AStarNode),
      LoopInv diag area s → SeedOK area s → s.open_list = cur :: rest →
      cur.position ≠ end_pos area →
      SeedOK area
        (expand_node diag area ⟨pq_pop (cur :: rest), (cur.position, cur) :: s.closed_list⟩ cur) := by
    intro s cur rest hL hX ho hne
    right
    rw [(iter_spec diag area s cur rest hL ho hne).2]
    exact seed_ok_step diag area s cur rest hL hX ho
  rcases solve_loop_final diag area fuel (SeedOK area) hstep fuel _ (seeded_loop diag area hv) hX
    path s' h with ⟨_, h2, h3, h4⟩ | ⟨s0, cur, rest, h1, h2, h3, _, h5, _⟩
  · refine ⟨?_, closed_ok_nodup diag area _ h3.1.closed⟩
    rcases h4 with ⟨_, h⟩ | h
    · rw [h2] at h; cases h
    · exact h
  · subst h5
    exact ⟨seed_ok_step diag area s0 cur rest h1 h2 h3,
      closed_ok_nodup diag area _ (pop_spec diag area s0 cur rest h1.1 h1.2.1 h3).2.1.closed⟩

/-- C18, as stated, fails: on the row `O X` the node emplaced for the start, popped first
and stored in the closed set has `f_value` 0, while `predicted_cost(start)` is 2. -/
theorem seed_f_value_counterexample :
    (seeded line_area).open_list = [⟨(0, 0), (-1, -1), 0, 0⟩] ∧
      ((fresh_pops false line_area 10)[0]?).map Prod.fst = some ⟨(0, 0), (-1, -1), 0, 0⟩ ∧
      (solve false line_area 10 AStarSolver.fresh).map
          (fun r => map_find r.2.closed_list (0, 0)) = some (some ⟨(0, 0), (-1, -1), 0, 0⟩) ∧
      predicted_cost line_area 0 0 = 2 := by
  decide!

theorem manhattan_zero_iff (sx sy ex ey : Int) :
    0 = (ex - sx).natAbs + (ey - sy).natAbs ↔ sx = ex ∧ sy = ey := by
  omega

/-- C18 (amended): for every grid with `EMPTY` start and end, the node `solve` emplaces
for the start position has `g_value` 0, predecessor `(-1, -1)` and `f_value` 0, which
equals `predicted_cost(start)` exactly when start and end coincide; the main loop starts
from the frontier holding just that node, and whenever `solve` returns, the closed set
stores that node under the start position. -/
theorem seed_node_closed (diag : Bool) (area : Area) (hs : is_empty area (start_pos area))
    (he : is_empty area (end_pos area)) :
    seed_node area = ⟨start_pos area, (-1, -1), 0, 0⟩ ∧
      ((seed_node area).f_value = predicted_cost area area.start_x area.start_y ↔
        start_pos area = end_pos area) ∧
      (seeded area).open_list = [seed_node area] ∧
      ∀ fuel, solve diag area fuel AStarSolver.fresh =
          solve_loop diag area fuel fuel (seeded area) ∧
        ∀ path s', solve diag area fuel AStarSolver.fresh = some (path, s') →
          map_find s'.closed_list (start_pos area) = some (seed_node area) := by
  have hv : check_start_and_end_are_valid area = true := by
    unfold check_start_and_end_are_valid
    simp only [Bool.and_eq_true, beq_iff_eq]
    exact ⟨hs, he⟩
  have hcost : (seed_node area).f_value = predicted_cost area area.start_x area.start_y ↔
      start_pos area = end_pos area := by
    have hf : (seed_node area).f_value = 0 := rfl
    rw [hf]
    unfold predicted_cost start_pos end_pos
    rw [manhattan_zero_iff, Prod.mk.injEq]
  refine ⟨rfl, hcost, rfl, fun fuel => ⟨solve_fresh_eq diag area fuel hv, ?_⟩⟩
  intro path s' h
  obtain ⟨h1, h2⟩ := seed_stored diag area hv fuel path s' h
  exact map_find_of_mem _ h2 _ _ h1

/-- The row `O X` satisfies the hypotheses of `seed_node_closed`: its seed node is stored
in the closed set, and its `f_value` differs from `predicted_cost(start)` because start
and end differ. -/
theorem seed_node_closed_witness :
    (seed_node line_area).f_value ≠
        predicted_cost line_area line_area.start_x line_area.start_y ∧
      ∃ path s', solve false line_area 4 AStarSolver.fresh = some (path, s') ∧
        map_find s'.closed_list (start_pos line_area) = some (seed_node line_area) := by
  obtain ⟨r, hr⟩ := solve_loop_total false line_area 4 [(0, 0), (1, 0), (2, 0)] line_area_cells
    (by decide) 4 _ (seeded_loop false line_area (by decide)) (by decide)
  have h : solve false line_area 4 AStarSolver.fresh = some (r.1, r.2) := by
    rw [solve_fresh_eq false line_area 4 (by decide)]; exact hr
  exact ⟨fun hf => absurd
      ((seed_node_closed false line_area (by decide) (by decide)).2.1.1 hf) (by decide),
    r.1, r.2, h,
    ((seed_node_closed false line_area (by decide) (by decide)).2.2.2 4).2 r.1 r.2 h⟩

/-! ## Closed nodes are final -/

theorem map_find_mem (m : MapType) (k : Position) (n : AStarNode)
    (h : map_find m k = some n) : (k, n) ∈ m := by
  unfold map_find at h
  cases hf : m.find? (fun e => e.1 == k) with
  | none => rw [hf] at h; cases h
  | some e =>
    rw [hf] at h
    simp only [Option.map_some', Option.some.injEq] at h
    have hk : e.1 = k := by simpa using List.find?_some hf
    have he : e = (k, n) := Prod.ext hk h
    rw [← he]
    exact List.mem_of_find?_eq_some hf

theorem map_find_of_suffix (a b : MapType) (hsuf : a <:+ b) (hnd : (map_keys b).Nodup)
    (k : Position) (n : AStarNode) (h : map_find a k = some n) : map_find b k = some n :=
  map_find_of_mem b hnd k n (hsuf.subset (map_find_mem a k n h))

theorem expand_states_spec (diag : Bool) (area : Area) (s : AStarSolver) (node : AStarNode)
    (hI : Inv diag area s) (hs : start_pos area ∈ map_keys s.closed_list)
    (hn : node.position ∈ map_keys s.closed_list) :
    ∀ t ∈ expand_states diag area s node, Inv diag area t ∧ t.closed_list = s.closed_list := by
  intro t ht
  unfold expand_states at ht
  rw [List.mem_map] at ht
  obtain ⟨j, _, rfl⟩ := ht
  have := try_add_foldl_spec diag area node ((neighbours diag node.position).take j) s
    (fun q hq => unit_step_of_mem_neighbours diag _ q (List.mem_of_mem_take hq)) hI hs hn
  exact ⟨this.1, this.2.1⟩

theorem solve_states_spec (diag : Bool) (area : Area) :
    ∀ (fuel : Nat) (s : AStarSolver), LoopInv diag area s →
      (∀ t ∈ solve_states diag area fuel s,
        Inv diag area t ∧ s.closed_list <:+ t.closed_list) ∧
      List.Pairwise (fun a b => a.closed_list <:+ b.closed_list)
        (solve_states diag area fuel s) := by
  intro fuel
  induction fuel with
  | zero =>
    intro s hL
    simp only [solve_states, List.mem_singleton, List.pairwise_singleton, and_true]
    rintro t rfl
    exact ⟨hL.1, List.suffix_refl _⟩
  | succ fuel ih =>
    intro s hL
    unfold solve_states
    split
    · simp only [List.mem_singleton, List.pairwise_singleton, and_true]
      rintro t rfl
      exact ⟨hL.1, List.suffix_refl _⟩
    · rename_i cur rest ho
      obtain ⟨hassign, p2, p3, _⟩ := pop_spec diag area s cur rest hL.1 hL.2.1 ho
      simp only [hassign]
      have hsuf : s.closed_list <:+ (cur.position, cur) :: s.closed_list :=
        List.suffix_cons _ _
      split
      · constructor
        · intro t ht
          rcases List.mem_cons.1 ht with rfl | ht
          · exact ⟨hL.1, List.suffix_refl _⟩
          · rw [List.mem_singleton] at ht
            subst ht
            exact ⟨p2, hsuf⟩
        · rw [List.pairwise_cons]
          refine ⟨?_, List.pairwise_singleton _ _⟩
          intro t ht
          rw [List.mem_singleton] at ht
          subst ht
          exact hsuf
      · rename_i hc
        have hne : cur.position ≠ end_pos area := fun hh => hc ((end_cond_iff area cur).2 hh)
        obtain ⟨i1, i2⟩ := iter_spec diag area s cur rest hL ho hne
        obtain ⟨r1, r2⟩ := ih _ i1
        have hE := expand_states_spec diag area
          ⟨pq_pop (cur :: rest), (cur.position, cur) :: s.closed_list⟩ cur p2 p3
          (by rw [map_keys_cons]; exact List.mem_cons_self _ _)
        have hall : ∀ t ∈ expand_states diag area
            ⟨pq_pop (cur :: rest), (cur.position, cur) :: s.closed_list⟩ cur ++
            solve_states diag area fuel (expand_node diag area
              ⟨pq_pop (cur :: rest), (cur.position, cur) :: s.closed_list⟩ cur),
            Inv diag area t ∧ (cur.position, cur) :: s.closed_list <:+ t.closed_list := by
          intro t ht
          rcases List.mem_append.1 ht with ht | ht
          · obtain ⟨e1, e2⟩ := hE t ht
            exact ⟨e1, by rw [e2]⟩
          · obtain ⟨e1, e2⟩ := r1 t ht
            rw [i2] at e2
            exact ⟨e1, e2⟩
        constructor
        · intro t ht
          rcases List.mem_cons.1 ht with rfl | ht
          · exact ⟨hL.1, List.suffix_refl _⟩
          · exact ⟨(hall t ht).1, hsuf.trans (hall t ht).2⟩
        · rw [List.pairwise_cons]
          refine ⟨fun t ht => hsuf.trans (hall t ht).2, ?_⟩
          rw [List.pairwise_append]
          refine ⟨?_, r2, ?_⟩
          · rw [List.pairwise_iff_forall_sublist]
            intro a b hab
            have ha := hE a (hab.subset (List.mem_cons_self _ _))
            have hb := hE b (hab.subset (List.mem_cons_of_mem _ (List.mem_singleton_self _)))
            rw [ha.2, hb.2]
          · intro a ha b hb
            rw [(hE a ha).2]
            have := (r1 b hb).2
            rwa [i2] at this

theorem solve_loop_mem_states (diag : Bool) (area : Area) (pfuel : Nat) :
    ∀ (fuel : Nat) (s : AStarSolver), LoopInv diag area s →
      ∀ (path : List Position) (s' : AStarSolver),
        solve_loop diag area pfuel fuel s = some (path, s') →
        s' ∈ solve_states diag area fuel s := by
  intro fuel
  induction fuel with
  | zero => intro s _ path s' h; simp [solve_loop] at h
  | succ fuel ih =>
    intro s hL path s' h
    unfold solve_loop at h
    unfold solve_states
    split at h
    · rename_i ho
      injection h with h
      injection h with h1 h2
      subst h2
      simp [ho]
    · rename_i cur rest ho
      have hassign := (pop_spec diag area s cur rest hL.1 hL.2.1 ho).1
      simp only [hassign] at h
      simp only [ho, hassign]
      split at h
      · rename_i hc
        have he := (end_cond_iff area cur).1 hc
        obtain ⟨_, g2⟩ := goal_spec diag area s cur rest hL ho he pfuel
        rw [if_pos hc]
        rcases g2 with ⟨g2, _⟩ | g2
        · rw [g2] at h; cases h
        · rw [g2] at h
          injection h with h
          injection h with h1 h2
          subst h2
          simp
      · rename_i hc
        have hne : cur.position ≠ end_pos area := fun hh => hc ((end_cond_iff area cur).2 hh)
        rw [if_neg hc]
        have := ih _ (iter_spec diag area s cur rest hL ho hne).1 path s' h
        exact List.mem_cons_of_mem _ (List.mem_append_right _ this)

/-- C16: during `solve` on a fresh solver with `EMPTY` start and end, in every state the
solver passes through the frontier holds no two nodes with the same position, no
frontier position is a key of the closed set and no key is stored twice; moreover an
entry found in the closed set in one state is found unchanged (same `g_value`,
`f_value` and predecessor) in every later state, and the state `solve` returns is one of
these states. -/
theorem closed_nodes_final (diag : Bool) (area : Area)
    (hs : is_empty area (start_pos area)) (he : is_empty area (end_pos area)) (fuel : Nat) :
    (∀ t ∈ solve_states diag area fuel (seeded area),
        (t.open_list.map AStarNode.position).Nodup ∧
        (∀ n ∈ t.open_list, n.position ∉ map_keys t.closed_list) ∧
        (map_keys t.closed_list).Nodup) ∧
      List.Pairwise
        (fun a b => ∀ k n, map_find a.closed_list k = some n → map_find b.closed_list k = some n)
        (solve_states diag area fuel (seeded area)) ∧
      ∀ path s', solve diag area fuel AStarSolver.fresh = some (path, s') →
        s' ∈ solve_states diag area fuel (seeded area) := by
  have hv : check_start_and_end_are_valid area = true := by
    unfold check_start_and_end_are_valid
    simp only [Bool.and_eq_true, beq_iff_eq]
    exact ⟨hs, he⟩
  have hL := seeded_loop diag area hv
  obtain ⟨r1, r2⟩ := solve_states_spec diag area fuel _ hL
  refine ⟨?_, ?_, ?_⟩
  · intro t ht
    have hI := (r1 t ht).1
    exact ⟨hI.nodup, fun n hn => (hI.opened n hn).2, closed_ok_nodup diag area _ hI.closed⟩
  · refine List.Pairwise.imp_of_mem ?_ r2
    intro a b _ hb hab k n hk
    exact map_find_of_suffix _ _ hab (closed_ok_nodup diag area _ (r1 b hb).1.closed) k n hk
  · intro path s' h
    rw [solve_fresh_eq diag area fuel hv] at h
    exact solve_loop_mem_states diag area fuel fuel _ hL path s' h

/-- The row `O X` satisfies the hypotheses of `closed_nodes_final`; its run passes
through 14 states. -/
theorem closed_nodes_final_witness :
    (solve_states false line_area 10 (seeded line_area)).length = 14 ∧
      ∀ t ∈ solve_states false line_area 10 (seeded line_area),
        (t.open_list.map AStarNode.position).Nodup ∧
        (∀ n ∈ t.open_list, n.position ∉ map_keys t.closed_list) ∧
        (map_keys t.closed_list).Nodup :=
  ⟨by decide!, (closed_nodes_final false line_area (by decide) (by decide) 10).1⟩

/-! ## Recorded costs along the path -/

theorem g_ok_mono (area : Area) (m m' : MapType) (n : AStarNode)
    (hsub : ∀ x ∈ m, x ∈ m') (h : g_ok area m n) : g_ok area m' n := by
  refine ⟨h.1, fun hne => ?_⟩
  obtain ⟨p, hp, hg⟩ := h.2 hne
  exact ⟨p, hsub _ hp, hg⟩

theorem ginv_seeded (area : Area) : GInv area (seeded area) := by
  refine ⟨trivial, ?_⟩
  intro n hn
  have hq : (seeded area).open_list = [AStarNode.ofXY area.start_x area.start_y] := rfl
  rw [hq, List.mem_singleton] at hn
  subst hn
  exact ⟨fun _ => rfl, fun hne => absurd rfl hne⟩

theorem ginv_pop (area : Area) (s : AStarSolver) (cur : AStarNode)
    (rest : List AStarNode) (hG : GInv area s) (ho : s.open_list = cur :: rest) :
    GInv area ⟨pq_pop (cur :: rest), (cur.position, cur) :: s.closed_list⟩ := by
  constructor
  · exact ⟨hG.2 cur (by rw [ho]; exact List.mem_cons_self _ _), hG.1⟩
  · intro n hn
    have hn' : n ∈ rest := (pq_pop_perm cur rest).cons_inv.mem_iff.1 hn
    exact g_ok_mono area _ _ n (fun x hx => List.mem_cons_of_mem _ hx)
      (hG.2 n (by rw [ho]; exact List.mem_cons_of_mem _ hn'))

theorem ginv_step (diag : Bool) (area : Area) (s : AStarSolver) (cur : AStarNode)
    (rest : List AStarNode) (hL : LoopInv diag area s) (hG : GInv area s)
    (ho : s.open_list = cur :: rest) (hne : cur.position ≠ end_pos area) :
    GInv area
      (expand_node diag area ⟨pq_pop (cur :: rest), (cur.position, cur) :: s.closed_list⟩ cur) := by
  obtain ⟨i1, i2⟩ := iter_spec diag area s cur rest hL ho hne
  obtain ⟨_, _, p3, _⟩ := pop_spec diag area s cur rest hL.1 hL.2.1 ho
  obtain ⟨q1, q2⟩ := ginv_pop area s cur rest hG ho
  constructor
  · rw [i2]; exact q1
  · intro n hn
    rw [i2]
    rcases expand_node_mem diag area _ cur n hn with h | ⟨h1, h2, _⟩
    · exact q2 n h
    · have hns : n.position ≠ start_pos area := by
        intro hh
        have := (i1.1.opened n hn).2
        rw [i2, hh] at this
        exact this p3
      exact ⟨fun hh => absurd hh hns,
        fun _ => ⟨cur, by rw [h1]; exact List.mem_cons_self _ _, h2⟩⟩

theorem map_find_cons_ne (e : Position × AStarNode) (m : MapType) (p : Position)
    (h : e.1 ≠ p) : map_find (e :: m) p = map_find m p := by
  unfold map_find
  have hb : (e.1 == p) = false := by simpa using h
  simp only [List.find?_cons, hb]

theorem entry_g (diag : Bool) (area : Area) (hneg : NoSentinelCoord area) (m : MapType)
    (h : closed_ok diag area m) (hg : closed_g_ok area m) :
    ∀ k e, (k, e) ∈ m → e.g_value = (walk m k).length % U64 := by
  induction m with
  | nil => intro k e he; cases he
  | cons e0 m ih =>
    intro k e he
    obtain ⟨hpos, hnot, ⟨hemp, hor⟩, hm⟩ := h
    obtain ⟨hg0, hgm⟩ := hg
    by_cases hek : e0.1 = k
    · have hee : e0 = (k, e) := by
        rcases List.mem_cons.1 he with h | h
        · exact h.symm
        · exfalso; apply hnot; rw [hek]; exact List.mem_map_of_mem Prod.fst h
      have he2 : e0.2 = e := by rw [hee]
      unfold walk
      rw [if_pos hek]
      rcases hor with ⟨hs, hp⟩ | ⟨hne, hp, _⟩
      · have hc : ¬ (e0.2.predecessor.1 ≠ -1 ∧ e0.2.predecessor.2 ≠ -1) := by
          rw [hp]; intro hh; exact hh.1 rfl
        rw [if_neg hc, ← he2, hg0.1 hs]
        rfl
      · have hc : e0.2.predecessor.1 ≠ -1 ∧ e0.2.predecessor.2 ≠ -1 :=
          hneg _ (closed_ok_empty diag area m hm _ hp)
        rw [if_pos hc]
        obtain ⟨p, hpm, hgp⟩ := hg0.2 hne
        rw [← he2, hgp, ih hm hgm _ p hpm, List.length_cons]
        exact Nat.mod_add_mod _ _ _
    · have hm' : (k, e) ∈ m := by
        rcases List.mem_cons.1 he with h | h
        · exfalso; apply hek; rw [← h]
        · exact h
      unfold walk
      rw [if_neg hek]
      exact ih hm hgm k e hm'

theorem walk_costs (diag : Bool) (area : Area) (hneg : NoSentinelCoord area) (m : MapType)
    (h : closed_ok diag area m) (hg : closed_g_ok area m) :
    ∀ k ∈ map_keys m,
      (walk m k).reverse.map (fun p => (map_find m p).map AStarNode.g_value) =
        (List.range' 1 (walk m k).length).map (fun j => some (j % U64)) := by
  induction m with
  | nil => intro k hk; simp [map_keys] at hk
  | cons e0 m ih =>
    intro k hk
    have hfull := h
    have hgfull := hg
    obtain ⟨hpos, hnot, ⟨hemp, hor⟩, hm⟩ := h
    obtain ⟨hg0, hgm⟩ := hg
    have hcongr : ∀ k', ∀ p ∈ (walk m k').reverse,
        (map_find (e0 :: m) p).map AStarNode.g_value = (map_find m p).map AStarNode.g_value := by
      intro k' p hp
      rw [List.mem_reverse] at hp
      have hpm := (walk_mem diag area m hm k' p hp).1
      rw [map_find_cons_ne e0 m p (fun hh => hnot (hh ▸ hpm))]
    by_cases hek : e0.1 = k
    · have hwalk := entry_g diag area hneg (e0 :: m) hfull hgfull e0.1 e0.2
        (List.mem_cons_self _ _)
      rw [hek] at hwalk
      have hfind : map_find (e0 :: m) e0.2.position = some e0.2 := by
        rw [hpos]
        exact map_find_of_mem _ (closed_ok_nodup diag area _ hfull) _ _ (List.mem_cons_self _ _)
      unfold walk at hwalk ⊢
      rw [if_pos hek] at hwalk ⊢
      split
      · rename_i hc
        rw [if_pos hc] at hwalk
        rcases hor with ⟨_, hp⟩ | ⟨_, hp, _⟩
        · rw [hp] at hc; exact absurd rfl hc.1
        · rw [List.reverse_cons, List.map_append, List.map_congr_left (hcongr _),
            ih hm hgm _ hp, List.length_cons, List.range'_concat, List.map_append]
          simp only [List.map_cons, List.map_nil, hfind, Option.map_some', hwalk,
            List.length_cons, Nat.one_mul]
          rw [Nat.add_comm 1]
      · simp
    · rw [map_keys_cons, List.mem_cons] at hk
      rcases hk with rfl | hk
      · exact absurd rfl hek
      · unfold walk
        rw [if_neg hek, List.map_congr_left (hcongr _)]
        exact ih hm hgm k hk

theorem start_entry_g (diag : Bool) (area : Area) (m : MapType) (h : closed_ok diag area m)
    (hg : closed_g_ok area m) :
    ∀ e, (start_pos area, e) ∈ m → e.g_value = 0 := by
  induction m with
  | nil => intro e he; cases he
  | cons e0 m ih =>
    intro e he
    rcases List.mem_cons.1 he with h1 | h1
    · have hp : e0.2.position = start_pos area := by rw [h.1, ← h1]
      have := hg.1.1 hp
      rw [← h1] at this
      exact this
    · exact ih h.2.2.2 hg.2 e h1

theorem mem_of_mem_keys (m : MapType) (k : Position) (h : k ∈ map_keys m) :
    ∃ e, (k, e) ∈ m := by
  unfold map_keys at h
  rw [List.mem_map] at h
  obtain ⟨x, hx, rfl⟩ := h
  exact ⟨x.2, hx⟩

/-- The costs recorded in a well-formed closed set along the reversed reconstruction
walk: position `i` of the path carries the recorded cost `i`. -/
theorem walk_path_costs (diag : Bool) (area : Area) (hneg : NoSentinelCoord area)
    (m : MapType) (h : closed_ok diag area m) (hg : closed_g_ok area m)
    (hs : start_pos area ∈ map_keys m) (k : Position) (hk : k ∈ map_keys m)
    (hlen : (walk m k).length < U64) :
    ∀ i (hi : i < (start_pos area :: (walk m k).reverse).length),
      ∃ n, map_find m ((start_pos area :: (walk m k).reverse)[i]) = some n ∧ n.g_value = i := by
  have hnd := closed_ok_nodup diag area m h
  have hW := walk_costs diag area hneg m h hg k hk
  intro i hi
  cases i with
  | zero =>
    obtain ⟨e, he⟩ := mem_of_mem_keys m _ hs
    exact ⟨e, map_find_of_mem m hnd _ _ he, start_entry_g diag area m h hg e he⟩
  | succ j =>
    have hj : j < (walk m k).reverse.length := by
      simp only [List.length_cons] at hi; omega
    have hj' : j < (walk m k).length := by simpa using hj
    have h1 : ((walk m k).reverse.map (fun p => (map_find m p).map AStarNode.g_value))[j]? =
        ((List.range' 1 (walk m k).length).map (fun j => some (j % U64)))[j]? := by rw [hW]
    rw [List.getElem?_map, List.getElem?_map, List.getElem?_eq_getElem hj,
      List.getElem?_eq_getElem (by simpa using hj')] at h1
    simp only [Option.map_some', Option.some.injEq, List.getElem_range', Nat.one_mul] at h1
    rw [Option.map_eq_some'] at h1
    obtain ⟨n, hn1, hn2⟩ := h1
    refine ⟨n, ?_, ?_⟩
    · simpa using hn1
    · rw [hn2, Nat.mod_eq_of_lt (by omega)]; omega

/-- C20: on a grid in which no `EMPTY` cell has `-1` as a coordinate, a non-empty path
returned by `solve` on a fresh solver (of at most `2 ^ 64` positions, the range of
`g_value`) has exactly `g + 1` positions, where `g` is the `g_value` stored in the closed
set for the end position, and position `i` of the path has `g_value` `i` in the closed
set. -/
theorem path_costs (diag : Bool) (area : Area) (hneg : NoSentinelCoord area) (fuel : Nat)
    (path : List Position) (s' : AStarSolver)
    (h : solve diag area fuel AStarSolver.fresh = some (path, s')) (hne : path ≠ [])
    (hlen : path.length ≤ U64) :
    (∃ e, map_find s'.closed_list (end_pos area) = some e ∧ path.length = e.g_value + 1) ∧
      ∀ i (hi : i < path.length),
        ∃ n, map_find s'.closed_list path[i] = some n ∧ n.g_value = i := by
  rcases solve_fresh_cases diag area fuel path s' h with ⟨_, hp, _⟩ | ⟨hv, _⟩
  · exact absurd hp hne
  · rw [solve_fresh_eq diag area fuel hv] at h
    rcases solve_loop_final diag area fuel (GInv area)
        (fun s cur rest hL hX ho hn => ginv_step diag area s cur rest hL hX ho hn) fuel _
        (seeded_loop diag area hv) (ginv_seeded area) path s' h with
      ⟨hp, _⟩ | ⟨s0, cur, rest, h1, h2, h3, h4, h5, h6⟩
    · exact absurd hp hne
    · obtain ⟨_, p2, p3, _⟩ := pop_spec diag area s0 cur rest h1.1 h1.2.1 h3
      have hg := (ginv_pop area s0 cur rest h2 h3).1
      have hcl : s'.closed_list = (cur.position, cur) :: s0.closed_list := by rw [h5]
      rw [← hcl] at p3 hg
      have hok : closed_ok diag area s'.closed_list := by rw [hcl]; exact p2.closed
      have hend : end_pos area ∈ map_keys s'.closed_list := by
        rw [hcl, map_keys_cons, h4]; exact List.mem_cons_self _ _
      have hpath : path = start_pos area :: (walk s'.closed_list (end_pos area)).reverse := by
        rw [h6, List.reverse_append]; rfl
      have hL : path.length = (walk s'.closed_list (end_pos area)).length + 1 := by
        rw [hpath]; simp
      have hall := walk_path_costs diag area hneg _ hok hg p3 _ hend (by omega)
      have hidx : ∀ i (hi : i < path.length),
          ∃ n, map_find s'.closed_list path[i] = some n ∧ n.g_value = i := by
        intro i hi
        have hi' : i < (start_pos area :: (walk s'.closed_list (end_pos area)).reverse).length := by
          rw [← hpath]; exact hi
        obtain ⟨n, hn1, hn2⟩ := hall i hi'
        refine ⟨n, ?_, hn2⟩
        have : path[i] = (start_pos area :: (walk s'.closed_list (end_pos area)).reverse)[i] := by
          congr 1
        rw [this]; exact hn1
      refine ⟨?_, hidx⟩
      have hlast : path.getLast? = some (end_pos area) := by
        rw [h6, List.getLast?_reverse]
        exact (walk_chain diag area hneg _ hok _ hend).1
      rw [List.getLast?_eq_getElem?] at hlast
      have hlt : path.length - 1 < path.length := by omega
      rw [List.getElem?_eq_getElem hlt, Option.some.injEq] at hlast
      obtain ⟨n, hn1, hn2⟩ := hidx (path.length - 1) hlt
      rw [hlast] at hn1
      exact ⟨n, hn1, by omega⟩

/-- The row `O X` satisfies the hypotheses of `path_costs`. -/
theorem path_costs_witness :
    ∃ path s', solve false line_area 4 AStarSolver.fresh = some (path, s') ∧
      path = [(0, 0), (1, 0), (2, 0)] ∧
      ∃ e, map_find s'.closed_list (end_pos line_area) = some e ∧ path.length = e.g_value + 1 := by
  obtain ⟨r, hr⟩ := solve_loop_total false line_area 4 [(0, 0), (1, 0), (2, 0)] line_area_cells
    (by decide) 4 _ (seeded_loop false line_area (by decide)) (by decide)
  have h : solve false line_area 4 AStarSolver.fresh = some (r.1, r.2) := by
    rw [solve_fresh_eq false line_area 4 (by decide)]; exact hr
  have hsp : solve_path false line_area 4 AStarSolver.fresh = some [(0, 0), (1, 0), (2, 0)] := by
    decide
  have hp : r.1 = [(0, 0), (1, 0), (2, 0)] := by
    unfold solve_path at hsp
    rw [h] at hsp
    simpa using hsp
  exact ⟨r.1, r.2, h, hp,
    (path_costs false line_area (rect_no_sentinel _) 4 r.1 r.2 h (by rw [hp]; decide)
      (by rw [hp]; decide)).1⟩

/-! ## Where `push_heap` leaves the front of the vector -/

theorem push_heap_loop_keeps_front (value : AStarNode) :
    ∀ (fuel : Nat) (c : List AStarNode) (hole : Nat), 0 < hole →
      (c.getD 0 default).f_value ≤ value.f_value →
      (push_heap_loop value fuel c hole).getD 0 default = c.getD 0 default := by
  intro fuel
  induction fuel with
  | zero => intro c hole hh _; exact getD_set_ne c hole 0 value (by omega)
  | succ fuel ih =>
    intro c hole hh hle
    unfold push_heap_loop
    split
    · rename_i hc
      have hp : 0 < (hole - 1) / 2 := by
        rcases Nat.eq_zero_or_pos ((hole - 1) / 2) with h0 | h0
        · rw [h0] at hc; omega
        · exact h0
      have hset : (c.set hole (c.getD ((hole - 1) / 2) default)).getD 0 default =
          c.getD 0 default := getD_set_ne c hole 0 _ (by omega)
      rw [ih _ _ hp (by rw [hset]; exact hle), hset]
    · exact getD_set_ne c hole 0 value (by omega)

theorem push_heap_loop_to_front (value : AStarNode) :
    ∀ (fuel : Nat) (c : List AStarNode) (hole : Nat), hole ≤ fuel → hole < c.length →
      (∀ i, i < c.length → i ≠ hole → value.f_value < (c.getD i default).f_value) →
      (push_heap_loop value fuel c hole).getD 0 default = value := by
  intro fuel
  induction fuel with
  | zero =>
    intro c hole hf hl _
    have : hole = 0 := by omega
    subst this
    exact getD_set_self c 0 value hl
  | succ fuel ih =>
    intro c hole hf hl hall
    unfold push_heap_loop
    split
    · rename_i hc
      apply ih
      · omega
      · simp; omega
      · intro i hi hne
        have hi' : i < c.length := by simpa using hi
        by_cases hih : i = hole
        · subst hih
          rw [getD_set_self c i _ hi']
          exact hall _ (by omega) (by omega)
        · rw [getD_set_ne c hole i _ (fun h => hih h.symm)]
          exact hall i hi' hih
    · rename_i hc
      have h0 : hole = 0 := by
        rcases Nat.eq_zero_or_pos hole with h0 | h0
        · exact h0
        · exfalso
          exact hc ⟨h0, hall _ (by omega) (by omega)⟩
      subst h0
      exact getD_set_self c 0 value hl

theorem front_of_getD (c : List AStarNode) (a : AStarNode) (hne : c ≠ [])
    (h : c.getD 0 default = a) : ∃ rest, c = a :: rest := by
  cases c with
  | nil => exact absurd rfl hne
  | cons b t =>
    have : b = a := by simpa [List.getD] using h
    exact ⟨t, by rw [this]⟩

theorem pq_emplace_keeps_front (a v : AStarNode) (t : List AStarNode)
    (h : a.f_value ≤ v.f_value) : ∃ rest, pq_emplace (a :: t) v = a :: rest := by
  have hne : pq_emplace (a :: t) v ≠ [] := by
    intro hh
    have := (pq_emplace_perm (a :: t) v).length_eq
    rw [hh] at this
    simp at this
  apply front_of_getD _ _ hne
  unfold pq_emplace push_heap
  have hlen : (a :: t ++ [v]).length - 1 = t.length + 1 := by simp
  rw [hlen]
  have hval : (a :: t ++ [v]).getD (t.length + 1) default = v := by
    simp [List.getD, List.getElem?_append_right]
  rw [hval, push_heap_loop_keeps_front v _ _ _ (by omega) (by simpa [List.getD] using h)]
  rfl

theorem pq_emplace_to_front (c : List AStarNode) (v : AStarNode)
    (h : ∀ n ∈ c, v.f_value < n.f_value) : ∃ rest, pq_emplace c v = v :: rest := by
  have hne : pq_emplace c v ≠ [] := by
    intro hh
    have := (pq_emplace_perm c v).length_eq
    rw [hh] at this
    simp at this
  apply front_of_getD _ _ hne
  unfold pq_emplace push_heap
  have hlen : (c ++ [v]).length - 1 = c.length := by simp
  rw [hlen]
  have hval : (c ++ [v]).getD c.length default = v := by
    simp [List.getD, List.getElem?_append_right]
  rw [hval]
  apply push_heap_loop_to_front v _ _ _ (Nat.le_refl _) (by simp)
  intro i hi hne'
  have hi' : i < c.length := by
    simp only [List.length_append, List.length_singleton] at hi; omega
  have hget : (c ++ [v]).getD i default = c.getD i default := by
    simp [List.getD, List.getElem?_append_left hi']
  rw [hget, getD_eq_of_lt c i hi']
  exact h _ (List.getElem_mem hi')

/-! ## Corner cutting -/

theorem corner_cost (sx sy ex ey qx qy : Int) (h1 : (ex - sx).natAbs = 1)
    (h2 : (ey - sy).natAbs = 1) (hq : max (qx - sx).natAbs (qy - sy).natAbs = 1) :
    (qx = ex ∧ qy = ey → (ex - qx).natAbs + (ey - qy).natAbs = 0) ∧
      (¬ (qx = ex ∧ qy = ey) → 1 ≤ (ex - qx).natAbs + (ey - qy).natAbs ∧
        (ex - qx).natAbs + (ey - qy).natAbs ≤ 4) := by
  have hq1 : (qx - sx).natAbs ≤ 1 := by omega
  have hq2 : (qy - sy).natAbs ≤ 1 := by omega
  clear hq
  constructor
  · rintro ⟨rfl, rfl⟩; simp
  · intro hne
    constructor <;> omega

theorem one_mod_u64 : (0 + 1) % U64 = 1 := by decide

theorem corner_add (area : Area) (st : AStarSolver) (q : Position) (px py : CoordType)
    (pg : Nat) (hp : (px, py) = start_pos area) (hpg : pg = 0)
    (h1 : (area.end_x - area.start_x).natAbs = 1) (h2 : (area.end_y - area.start_y).natAbs = 1)
    (hq : unit_step true (start_pos area) q) (hC : CornerInv area st.open_list) :
    CornerInv area (add_node area st q.1 q.2 px py pg).open_list ∧
      (add_node area st q.1 q.2 px py pg).closed_list = st.closed_list := by
  subst hpg
  have hcost := corner_cost area.start_x area.start_y area.end_x area.end_y q.1 q.2 h1 h2
    (by unfold unit_step at hq; simpa [start_pos] using hq)
  unfold add_node
  split
  · exact ⟨hC, rfl⟩
  · simp only []
    generalize hidx : st.open_list.findIdx (fun n => n.position.1 == q.1 && n.position.2 == q.2)
      = idx
    split
    · exact ⟨hC, rfl⟩
    · rename_i hskip
      split
      · rename_i hlt
        exfalso
        apply hskip
        refine ⟨hlt, ?_⟩
        have hmem : st.open_list.getD idx default ∈ st.open_list := by
          rw [getD_eq_of_lt _ _ hlt]; exact List.getElem_mem hlt
        rw [(hC.1 _ hmem).1, one_mod_u64]
      · rename_i hlt
        refine ⟨?_, rfl⟩
        simp only [one_mod_u64]
        have hperm := pq_emplace_perm st.open_list
          ⟨(q.1, q.2), (px, py), (1 + predicted_cost area q.1 q.2) % U64, 1⟩
        have hnotin : ∀ n ∈ st.open_list, n.position ≠ (q.1, q.2) := by
          intro n hn hnp
          apply hlt
          rw [← hidx]
          exact List.findIdx_lt_length_of_exists ⟨n, hn, (find_pred_iff q.1 q.2 n).2 hnp⟩
        by_cases hqe : (q.1, q.2) = end_pos area
        · have hxy : q.1 = area.end_x ∧ q.2 = area.end_y :=
            ⟨congrArg Prod.fst hqe, congrArg Prod.snd hqe⟩
          have hf : (1 + predicted_cost area q.1 q.2) % U64 = 1 := by
            unfold predicted_cost
            rw [hcost.1 hxy]
            decide
          rw [hf]
          rw [hf] at hperm
          have hlow : ∀ n ∈ st.open_list,
              (⟨(q.1, q.2), (px, py), 1, 1⟩ : AStarNode).f_value < n.f_value := by
            intro n hn
            have := (hC.1 n hn).2.2.2 (by rw [← hqe]; exact hnotin n hn)
            show 1 < n.f_value
            omega
          obtain ⟨rest, hrest⟩ := pq_emplace_to_front st.open_list _ hlow
          constructor
          · intro n hn
            rcases List.mem_cons.1 (hperm.mem_iff.1 hn) with h | h
            · rw [h]
              exact ⟨rfl, hp, fun _ => rfl, fun hh => absurd hqe hh⟩
            · exact hC.1 n h
          · intro _
            exact ⟨_, rest, hrest, hqe⟩
        · have hxy : ¬ (q.1 = area.end_x ∧ q.2 = area.end_y) := by
            rintro ⟨a, b⟩
            exact hqe (Prod.ext a b)
          have hb := hcost.2 hxy
          have hf : (1 + predicted_cost area q.1 q.2) % U64 = 1 + predicted_cost area q.1 q.2 := by
            apply Nat.mod_eq_of_lt
            unfold predicted_cost U64
            omega
          have hf2 : 2 ≤ 1 + predicted_cost area q.1 q.2 := by
            unfold predicted_cost
            omega
          rw [hf]
          rw [hf] at hperm
          constructor
          · intro n hn
            rcases List.mem_cons.1 (hperm.mem_iff.1 hn) with h | h
            · rw [h]
              exact ⟨rfl, hp, fun hh => absurd hh hqe, fun _ => hf2⟩
            · exact hC.1 n h
          · rintro ⟨n, hn, hne⟩
            have hn' : n ∈ st.open_list := by
              rcases List.mem_cons.1 (hperm.mem_iff.1 hn) with h | h
              · rw [h] at hne; exact absurd hne hqe
              · exact h
            obtain ⟨h0, t, ht, hh0⟩ := hC.2 ⟨n, hn', hne⟩
            have hf0 : h0.f_value = 1 :=
              (hC.1 h0 (by rw [ht]; exact List.mem_cons_self _ _)).2.2.1 hh0
            rw [ht]
            obtain ⟨rest, hrest⟩ := pq_emplace_keeps_front h0
              ⟨(q.1, q.2), (px, py), 1 + predicted_cost area q.1 q.2, 1⟩ t
              (by rw [hf0]; exact Nat.le_trans (by decide) hf2)
            exact ⟨h0, rest, hrest, hh0⟩

theorem corner_fold (area : Area) (h1 : (area.end_x - area.start_x).natAbs = 1)
    (h2 : (area.end_y - area.start_y).natAbs = 1) :
    ∀ (qs : List Position) (st : AStarSolver),
      (∀ q ∈ qs, unit_step true (start_pos area) q) → CornerInv area st.open_list →
      CornerInv area
        (qs.foldl (fun s q => try_add area (seed_node area) s q.1 q.2) st).open_list := by
  intro qs
  induction qs with
  | nil => intro st _ hC; exact hC
  | cons q qs ih =>
    intro st hq hC
    rw [List.foldl_cons]
    apply ih _ (fun q' hq' => hq q' (List.mem_cons_of_mem _ hq'))
    unfold try_add
    split
    · exact (corner_add area st q (seed_node area).position.1 (seed_node area).position.2
        (seed_node area).g_value rfl rfl h1 h2 (hq q (List.mem_cons_self _ _)) hC).1
    · exact hC

theorem solve_loop_step (diag : Bool) (area : Area) (pfuel fuel : Nat) (s : AStarSolver)
    (cur : AStarNode) (rest : List AStarNode) (hL : LoopInv diag area s)
    (ho : s.open_list = cur :: rest) (hne : cur.position ≠ end_pos area) :
    solve_loop diag area pfuel (fuel + 1) s =
      solve_loop diag area pfuel fuel
        (expand_node diag area ⟨pq_pop (cur :: rest), (cur.position, cur) :: s.closed_list⟩ cur) := by
  have hassign := (pop_spec diag area s cur rest hL.1 hL.2.1 ho).1
  have hc : ¬ (cur.position.1 = area.end_x ∧ cur.position.2 = area.end_y) :=
    fun hh => hne ((end_cond_iff area cur).1 hh)
  conv => lhs; unfold solve_loop
  simp only [ho, hassign]
  rw [if_neg hc]

theorem solve_loop_goal (diag : Bool) (area : Area) (pfuel fuel : Nat) (s : AStarSolver)
    (cur : AStarNode) (rest : List AStarNode) (hL : LoopInv diag area s)
    (ho : s.open_list = cur :: rest) (he : cur.position = end_pos area)
    (hp : s.closed_list.length + 1 < pfuel) :
    solve_loop diag area pfuel (fuel + 1) s =
      some ((walk ((cur.position, cur) :: s.closed_list) (end_pos area) ++
          [start_pos area]).reverse,
        ⟨pq_pop (cur :: rest), (cur.position, cur) :: s.closed_list⟩) := by
  have hassign := (pop_spec diag area s cur rest hL.1 hL.2.1 ho).1
  have hc : cur.position.1 = area.end_x ∧ cur.position.2 = area.end_y :=
    (end_cond_iff area cur).2 he
  obtain ⟨_, g2⟩ := goal_spec diag area s cur rest hL ho he pfuel
  unfold solve_loop
  simp only [ho, hassign]
  rw [if_pos hc]
  rcases g2 with ⟨_, g2⟩ | g2
  · omega
  · rw [g2]
    rfl

/-- C13: when start and end are `EMPTY` and diagonally adjacent and the start has
non-negative coordinates, `solve` with diagonal movement on a fresh solver returns
exactly `[start, end]`, whatever the classification of every other cell, the two cells
orthogonally adjacent to both included. -/
theorem corner_cut (area : Area) (hs : is_empty area (start_pos area))
    (he : is_empty area (end_pos area)) (h1 : (area.end_x - area.start_x).natAbs = 1)
    (h2 : (area.end_y - area.start_y).natAbs = 1) (hx : 0 ≤ area.start_x)
    (hy : 0 ≤ area.start_y) (fuel : Nat) (hf : 3 ≤ fuel) :
    solve_path true area fuel AStarSolver.fresh = some [start_pos area, end_pos area] := by
  have hv : check_start_and_end_are_valid area = true := by
    unfold check_start_and_end_are_valid
    simp only [Bool.and_eq_true, beq_iff_eq]
    exact ⟨hs, he⟩
  have hse : start_pos area ≠ end_pos area := by
    intro h
    have : area.start_x = area.end_x := congrArg Prod.fst h
    rw [this] at h1
    simp at h1
  have hL0 := seeded_loop true area hv
  have ho0 : (seeded area).open_list = seed_node area :: [] := rfl
  obtain ⟨i1, i2⟩ := iter_spec true area (seeded area) (seed_node area) [] hL0 ho0 hse
  obtain ⟨_, p2, p3, _⟩ := pop_spec true area (seeded area) (seed_node area) [] hL0.1 hL0.2.1 ho0
  obtain ⟨_, _, _, r4⟩ := expand_node_spec true area _ (seed_node area) p2 p3
    (by rw [map_keys_cons]; exact List.mem_cons_self _ _)
  have hC : CornerInv area (expand_node true area
      ⟨pq_pop [seed_node area], ((seed_node area).position, seed_node area) ::
        (seeded area).closed_list⟩ (seed_node area)).open_list := by
    rw [expand_node_eq_foldl]
    apply corner_fold area h1 h2 _ _
      (fun q hq => unit_step_of_mem_neighbours true _ q hq)
    have hnil : pq_pop [seed_node area] = [] := rfl
    show CornerInv area (pq_pop [seed_node area])
    rw [hnil]
    constructor
    · intro n hn; cases hn
    · rintro ⟨n, hn, _⟩; cases hn
  have hstep : walk_step true area (seed_node area).position (end_pos area) := by
    refine ⟨?_, he⟩
    unfold unit_step
    simp only [if_true]
    show max (area.end_x - area.start_x).natAbs (area.end_y - area.start_y).natAbs = 1
    rw [h1, h2]; rfl
  have hmem : ∃ n ∈ (expand_node true area
      ⟨pq_pop [seed_node area], ((seed_node area).position, seed_node area) ::
        (seeded area).closed_list⟩ (seed_node area)).open_list, n.position = end_pos area := by
    rcases r4 _ hstep with h | h
    · exfalso
      have : end_pos area = start_pos area := by
        simpa [map_keys, seeded, seed_node, AStarNode.ofXY, start_pos] using h
      exact hse this.symm
    · rw [List.mem_map] at h
      exact h
  obtain ⟨h0, rest, ho, hpos⟩ := hC.2 hmem
  obtain ⟨_, hpred, _, _⟩ := hC.1 h0 (by rw [ho]; exact List.mem_cons_self _ _)
  obtain ⟨f, rfl⟩ : ∃ f, fuel = f + 2 := ⟨fuel - 2, by omega⟩
  unfold solve_path
  rw [solve_fresh_eq true area (f + 2) hv,
    solve_loop_step true area (f + 2) (f + 1) (seeded area) (seed_node area) [] hL0 ho0 hse,
    solve_loop_goal true area (f + 2) f _ h0 rest i1 ho hpos (by rw [i2]; simp [seeded]; omega)]
  rw [i2]
  have hxn : (start_pos area).1 ≠ -1 := by
    intro h
    have : area.start_x = -1 := h
    rw [this] at hx
    exact absurd hx (by decide)
  have hyn : (start_pos area).2 ≠ -1 := by
    intro h
    have : area.start_y = -1 := h
    rw [this] at hy
    exact absurd hy (by decide)
  have hw : walk ((h0.position, h0) :: ((seed_node area).position, seed_node area) ::
      (seeded area).closed_list) (end_pos area) = [end_pos area] := by
    unfold walk
    rw [if_pos hpos, hpred, if_pos ⟨hxn, hyn⟩, hpos]
    unfold walk
    have hsp : (seed_node area).position = start_pos area := rfl
    rw [if_pos hsp]
    have hc : ¬ ((seed_node area).predecessor.1 ≠ -1 ∧ (seed_node area).predecessor.2 ≠ -1) :=
      fun hh => hh.1 rfl
    rw [if_neg hc]
  rw [hw]
  rfl

/-- The 2 by 2 grid with rows `O#` and ` X`, whose cell `(1,0)` between start and end is
`FILLED`, satisfies the hypotheses of `corner_cut` and yields `[(0,0), (1,1)]`. -/
theorem corner_cut_witness :
    start_pos corner_grid.toRect = (0, 0) ∧ end_pos corner_grid.toRect = (1, 1) ∧
      corner_grid.toRect.get 1 0 = AStarType.FILLED ∧
      solve_path true corner_grid.toRect 3 AStarSolver.fresh =
        some [start_pos corner_grid.toRect, end_pos corner_grid.toRect] :=
  ⟨by decide!, by decide!, by decide!,
    corner_cut corner_grid.toRect (by decide!) (by decide!) (by decide!) (by decide!)
      (by decide!) (by decide!) 3 (by decide)⟩

end AStar
